import Mathlib

/-!
Shallow embedding of a belief-propagation library over factor graphs, with a
discrete sum-product engine (`bayes.ts`), a Gaussian engine (`gaussian.ts`)
and shared numeric utilities (`util.ts`).  JS numbers are modelled as real
numbers; log-space values that may be `-Infinity` (from `Math.log(0)`) are
modelled by the two-constructor type `LReal` below.  Thrown exceptions are
modelled by `Option`-valued functions (`none` = the call throws).
-/

namespace BP

noncomputable section

/-- Node kinds, from `util.ts` (`enum GraphType`). -/
inductive GraphType where
  | FACTOR
  | VARIABLE
deriving DecidableEq, Repr

/-- A JS number that is either an ordinary (finite) real or `-Infinity`.
The log-space code paths of the discrete engine produce `-Infinity` via
`Math.log(0)`; `+Infinity` and `NaN` never arise on these paths. -/
inductive LReal where
  | negInf
  | fin (x : ℝ)
deriving DecidableEq

/-- JS addition on `{-∞} ∪ ℝ`: `-Infinity` absorbs. -/
def LReal.add : LReal → LReal → LReal
  | .negInf, _ => .negInf
  | .fin _, .negInf => .negInf
  | .fin x, .fin y => .fin (x + y)

/-- Subtraction of a finite number on `{-∞} ∪ ℝ`. -/
def LReal.subFin : LReal → ℝ → LReal
  | .negInf, _ => .negInf
  | .fin x, y => .fin (x - y)

/-- `Math.exp` on `{-∞} ∪ ℝ` (`Math.exp(-Infinity) = 0`). -/
def LReal.exp : LReal → ℝ
  | .negInf => 0
  | .fin x => Real.exp x

/-- Binary `Math.max` on `{-∞} ∪ ℝ`. -/
def LReal.max : LReal → LReal → LReal
  | .negInf, b => b
  | .fin x, .negInf => .fin x
  | .fin x, .fin y => .fin (x ⊔ y)

/-- `Math.log` on nonnegative JS numbers: `Math.log(0)` is `-Infinity`.
The embedded code never applies it to a negative number. -/
def jsLog (x : ℝ) : LReal := if 0 < x then .fin (Real.log x) else .negInf

/-- JS `x || d` for numbers `x`, `d`: `0` is falsy, so it yields `d` when
`x = 0` and `x` otherwise.  Composed with `List.getD · · 0` it also models
`xs[i] || d` where `xs[i]` may be `undefined`. -/
def jsOr (x d : ℝ) : ℝ := if x = 0 then d else x

/-- `BeliefUtils.LOG_EPSILON` (`util.ts`). -/
def LOG_EPSILON : ℝ := 1e-10

/-- `BeliefUtils.logSumExp` (`util.ts` lines 48-57).  The input list may
contain `-Infinity`; the result is always an ordinary number: the floor
constant for an empty input or an all-`-Infinity` maximum, and otherwise
`max + log(Σ exp(v - max))` accumulated by the source's running-sum loop. -/
def logSumExp (logValues : List LReal) : ℝ :=
  match logValues with
  | [] => LOG_EPSILON
  | v :: vs =>
    match vs.foldl LReal.max v with
    | .negInf => LOG_EPSILON
    | .fin maxLogValue =>
      maxLogValue +
        Real.log (logValues.foldl (fun sum lv => sum + (lv.subFin maxLogValue).exp) 0)

/-- `BeliefUtils.normalize` (`util.ts` lines 87-90): divide every entry by the
sum.  A zero sum is modelled by Lean's `x / 0 = 0` (the source relies on its
callers keeping the sum non-zero). -/
def normalize (values : List ℝ) : List ℝ :=
  values.map (fun x => x / values.foldl (· + ·) 0)

/-- `BeliefUtils.dampMessage` (`util.ts` lines 64-74): the element-wise blend
`dampingFactor * new + (1 - dampingFactor) * prev`, then renormalization by
the blended sum. -/
def dampMessage (newMsg prevMsg : List ℝ) (dampingFactor : ℝ) : List ℝ :=
  let damped := newMsg.mapIdx (fun idx val =>
    dampingFactor * val + (1 - dampingFactor) * prevMsg.getD idx 0)
  damped.map (fun x => x / damped.foldl (· + ·) 0)

/-- `BeliefUtils.gaussianDampMessage` (`util.ts` lines 76-85): the same blend
on a (mean, precision) pair, without renormalization.  (The Gaussian engine
does not call it; it inlines its own blend, see `gaussianApplyDamping`.) -/
def gaussianDampMessage (newMsg prevMsg : ℝ × ℝ) (dampingFactor : ℝ) : ℝ × ℝ :=
  (dampingFactor * newMsg.1 + (1 - dampingFactor) * prevMsg.1,
   dampingFactor * newMsg.2 + (1 - dampingFactor) * prevMsg.2)

/-- `BeliefUtils.cartesianProduct` (`util.ts` lines 92-97). -/
def cartesianProduct {α : Type} (arrays : List (List α)) : List (List α) :=
  arrays.foldl (fun acc arr => acc.flatMap (fun c => arr.map (fun v => c ++ [v]))) [[]]

/-! ## Graph normalization (shared by both engines' `processGraph`) -/

/-- Resolution of a node name to its dense id (`nodeDict[name]?.id || 0` in
both `processGraph`s): the position of the first node with that name, or the
source's `0` default when the name is absent.  Node names are unique because
they are the keys of the input `Record`. -/
def idOf (names : List String) (name : String) : ℕ :=
  match names.findIdx? (· = name) with
  | some i => i
  | none => 0

/-- The directed edge list built by both engines' `processGraph` (`bayes.ts`
lines 66-73, `gaussian.ts` lines 75-82): keep only edges whose endpoint names
both resolve, map names to dense ids, and expand each edge into both
directions. -/
def resolveEdges (names : List String) (edges : List (String × String)) :
    List (ℕ × ℕ) :=
  ((edges.filter (fun e => names.contains e.1 && names.contains e.2)).map
      (fun e => (idOf names e.1, idOf names e.2))).flatMap
    (fun e => [(e.1, e.2), (e.2, e.1)])

/-- One step of the adjacency loop shared verbatim by both engines
(`bayes.ts` lines 77-83, `gaussian.ts` lines 86-92): append `to` to `from`'s
neighbor list when both ids resolve to nodes of different kinds, otherwise
report the directed pair as an invalid edge (`console.error`). -/
def addAdjacency (types : List GraphType) :
    (ℕ → List ℕ) × List String → ℕ × ℕ → (ℕ → List ℕ) × List String :=
  fun acc e =>
    match types.get? e.1, types.get? e.2 with
    | some tf, some tt =>
      if tf ≠ tt then
        (fun i => if i = e.1 then acc.1 e.1 ++ [e.2] else acc.1 i, acc.2)
      else
        (acc.1, acc.2 ++ [s!"Invalid edge: ({e.1}, {e.2})"])
    | _, _ => (acc.1, acc.2 ++ [s!"Invalid edge: ({e.1}, {e.2})"])

/-- The `edges.forEach` adjacency pass of both `processGraph`s, producing the
per-id neighbor lists and the invalid-edge reports. -/
def buildAdjacency (types : List GraphType) (edges : List (ℕ × ℕ)) :
    (ℕ → List ℕ) × List String :=
  edges.foldl (addAdjacency types) (fun _ => [], [])

/-! ## Discrete engine (`bayes.ts`) -/

/-- Raw input node for the discrete engine (`BayesNodeInput`). -/
inductive DInputNode where
  | variable (possibleValues : List ℝ) (currentBelief : List ℝ)
  | factor (potential : List ℕ → ℝ)

/-- The kind tag of a raw input node. -/
def DInputNode.type : DInputNode → GraphType
  | .variable _ _ => .VARIABLE
  | .factor _ => .FACTOR

/-- Raw factor-graph input (`FactorGraph`, `util.ts`): named nodes in
`Object.entries` order (keys of a `Record`, hence unique) plus a list of
name pairs. -/
structure DInput where
  nodes : List (String × DInputNode)
  edges : List (String × String)

/-- Static data of a normalized discrete node (`BayesVariable` /
`BayesFactor` minus the mutable `currentBelief` / `logBelief` fields, which
live in `DState`).  Ids equal list positions; neighbor lists hold ids (the
arena form of the source's live object references, valid because
`processGraph` assigns `id: i` by position). -/
structure DNode where
  name : String
  type : GraphType
  possibleValues : List ℝ := []
  potential : List ℕ → ℝ := fun _ => 0

/-- The derived log-potential `processGraph` attaches to each factor
(`bayes.ts` lines 57-60): `log(p)` for a positive score, else the
`LOG_EPSILON` floor — always an ordinary finite number. -/
def logPotential (potential : List ℕ → ℝ) (values : List ℕ) : ℝ :=
  if 0 < potential values then Real.log (potential values) else LOG_EPSILON

/-- Result of the discrete `processGraph`: the node arena, the doubled edge
list, the neighbor lists, and the `console.error` reports for invalid
edges. -/
structure DNormalized where
  nodes : List DNode
  edges : List (ℕ × ℕ)
  neighbors : ℕ → List ℕ
  errors : List String

/-- `BeliefPropagation.processGraph` (`bayes.ts` lines 46-86): copy each
input node augmented with its name and positional id (factors get the
derived log-potential), resolve and double the edge list, and build the
neighbor lists, reporting same-kind pairs as invalid edges. -/
def dprocessGraph (g : DInput) : DNormalized :=
  let nodes := g.nodes.map (fun p =>
    match p.2 with
    | .variable pv _ => { name := p.1, type := .VARIABLE, possibleValues := pv : DNode }
    | .factor pot => { name := p.1, type := .FACTOR, potential := pot : DNode })
  let edges := resolveEdges (g.nodes.map Prod.fst) g.edges
  let adj := buildAdjacency (nodes.map DNode.type) edges
  { nodes := nodes, edges := edges, neighbors := adj.1, errors := adj.2 }

/-- The full mutable state of a `BeliefPropagation` instance (`bayes.ts`).
Per-node mutable fields (`currentBelief`, `logBelief`) and the arrays
(`messages`, `nextMessages`, `variableMarginals`) are indexed by dense node
id; `log` collects the `console.log` lines, the engine's only convergence
reporting. -/
structure DState where
  nodes : List DNode
  neighbors : ℕ → List ℕ
  currentBelief : ℕ → List ℝ
  logBelief : ℕ → List LReal
  messages : ℕ → ℕ → List ℝ
  nextMessages : ℕ → ℕ → List ℝ
  variableMarginals : ℕ → List ℝ
  dampingFactor : ℝ
  evidence : ℕ → Option ℝ
  log : List String

/-- The possible values of the node with id `id` (empty for factors and
missing ids). -/
def DState.domain (s : DState) (id : ℕ) : List ℝ :=
  match s.nodes.get? id with
  | some nd => nd.possibleValues
  | none => []

/-- The raw potential of the node with id `id`. -/
def DState.potential (s : DState) (id : ℕ) : List ℕ → ℝ :=
  match s.nodes.get? id with
  | some nd => nd.potential
  | none => fun _ => 0

/-- The `BeliefPropagation` constructor (`bayes.ts` lines 36-44 plus
`initializeMessages`, lines 88-115): normalize the graph, set every
variable's belief, log-belief and cached marginal to the uniform
distribution over its domain, and set each edge's initial message — a copy
of the receiving variable's uniform marginal, or `[1]` when the receiver is
a factor. -/
def dconstruct (g : DInput) (damping : ℝ) : DState :=
  let pg := dprocessGraph g
  let marginals : ℕ → List ℝ := fun id =>
    match pg.nodes.get? id with
    | some nd =>
      if nd.type = .VARIABLE then
        List.replicate nd.possibleValues.length ((1 : ℝ) / nd.possibleValues.length)
      else []
    | none => []
  { nodes := pg.nodes
    neighbors := pg.neighbors
    currentBelief := marginals
    logBelief := fun id => (marginals id).map (fun x => .fin (Real.log x))
    messages := pg.edges.foldl (fun m e => fun a b =>
      if a = e.1 ∧ b = e.2 then
        match pg.nodes.get? e.2 with
        | some nd => if nd.type = .VARIABLE then marginals e.2 else [1]
        | none => [1]
      else m a b) (fun _ _ => [])
    nextMessages := fun _ _ => []
    variableMarginals := marginals
    dampingFactor := damping
    evidence := fun _ => none
    log := [] }

/-- `updateVariableToFactorMessage` (`bayes.ts` lines 117-134): divide the
variable's cached marginal by the message previously received from the
target factor (flooring a zero/missing divisor at `LOG_EPSILON`, so the
divisor is always positive), renormalize, and store into `nextMessages`; for
an evidenced variable, copy the current message forward unchanged. -/
def updateVariableToFactorMessage (s : DState) (vid fid : ℕ) : DState :=
  match s.evidence vid with
  | some _ =>
    { s with nextMessages := fun a b =>
        if a = vid ∧ b = fid then s.messages vid fid else s.nextMessages a b }
  | none =>
    let logMessage := (s.variableMarginals vid).mapIdx (fun i m =>
      (jsLog m).subFin (Real.log (jsOr ((s.messages fid vid).getD i 0) LOG_EPSILON)))
    { s with nextMessages := fun a b =>
        if a = vid ∧ b = fid then normalize (logMessage.map LReal.exp)
        else s.nextMessages a b }

/-- `updateFactorToVariableMessage` (`bayes.ts` lines 136-177): sum-product
marginalization in log space.  For each candidate value of the target
variable, enumerate all joint assignments of the factor's other neighbors,
score each by `logPotential + Σ (log marginal - log incoming message)`,
combine the scores with `logSumExp`, normalize the resulting vector by its
own `logSumExp`, and exponentiate into `nextMessages`. -/
def updateFactorToVariableMessage (s : DState) (fid vid : ℕ) : DState :=
  let nbrs := s.neighbors fid
  let varIndex := nbrs.indexOf vid
  let otherVars := nbrs.filter (· ≠ vid)
  let logTerms := otherVars.map (fun w =>
    (s.variableMarginals w).mapIdx (fun i b =>
      (jsLog b).subFin (Real.log (jsOr ((s.messages w fid).getD i 0) LOG_EPSILON))))
  let valueCombinations := (otherVars.map (fun w => List.range (s.domain w).length)).foldl
    (fun acc vals => acc.flatMap (fun combo => vals.map (fun v => combo ++ [v]))) [[]]
  let values := fun (valIndex : ℕ) (combo : List ℕ) =>
    combo.enum.foldl (fun vals p => vals.set (nbrs.indexOf (otherVars.getD p.1 0)) p.2)
      ((List.replicate nbrs.length 0).set varIndex valIndex)
  let logMessages := (List.range (s.domain vid).length).map (fun valIndex =>
    logSumExp (valueCombinations.map (fun combo =>
      LReal.add (.fin (logPotential (s.potential fid) (values valIndex combo)))
        (combo.enum.foldl (fun sum p =>
          LReal.add sum ((logTerms.getD p.1 []).getD p.2 (.fin 0))) (.fin 0)))))
  let logZ := logSumExp (logMessages.map .fin)
  { s with nextMessages := fun a b =>
      if a = fid ∧ b = vid then logMessages.map (fun m => Real.exp (m - logZ))
      else s.nextMessages a b }

/-- The variable→factor half of the sweep (`bayes.ts` lines 182-188). -/
def dsweepVariablePhase (s : DState) : DState :=
  (List.range s.nodes.length).foldl (fun t id =>
    match t.nodes.get? id with
    | some nd =>
      if nd.type = .VARIABLE then
        (t.neighbors id).foldl (fun u fid => updateVariableToFactorMessage u id fid) t
      else t
    | none => t) s

/-- The factor→variable half of the sweep (`bayes.ts` lines 190-197). -/
def dsweepFactorPhase (s : DState) : DState :=
  (List.range s.nodes.length).foldl (fun t id =>
    match t.nodes.get? id with
    | some nd =>
      if nd.type = .FACTOR then
        (t.neighbors id).foldl (fun u vid => updateFactorToVariableMessage u id vid) t
      else t
    | none => t) s

/-- The buffer exchange ending the sweep (`bayes.ts` line 200). -/
def dswapBuffers (s : DState) : DState :=
  { s with messages := s.nextMessages, nextMessages := s.messages }

/-- `updateAllMessages` (`bayes.ts` lines 180-201): one synchronous sweep —
all variable→factor messages, then all factor→variable messages, each
computed from the `messages` buffer into `nextMessages`, after which the two
buffers are swapped. -/
def updateAllMessages (s : DState) : DState :=
  dswapBuffers (dsweepFactorPhase (dsweepVariablePhase s))

/-- One body of the `updateBeliefs` loop (`bayes.ts` lines 204-226) at node
`id`: for a non-evidenced variable, recompute the unnormalized marginal from
the incoming factor messages (summing logs of components, flooring
zero/missing entries at 1), exponentiate, normalize, blend with the previous
belief via `dampMessage`, and refresh `logBelief` and the cached marginal. -/
def updateBeliefStep (s : DState) (id : ℕ) : DState :=
  match s.nodes.get? id with
  | some nd =>
    if nd.type = .VARIABLE then
      match s.evidence id with
      | some _ => s
      | none =>
        let newMarginal := nd.possibleValues.mapIdx (fun i _ =>
          LReal.exp ((s.neighbors id).foldl (fun a nb =>
            LReal.add a (jsLog (jsOr ((s.messages nb id).getD i 0) 1))) (.fin 0)))
        let newBelief := dampMessage (normalize newMarginal) (s.currentBelief id)
          s.dampingFactor
        { s with
          currentBelief := fun j => if j = id then newBelief else s.currentBelief j
          logBelief := fun j => if j = id then newBelief.map jsLog else s.logBelief j
          variableMarginals := fun j =>
            if j = id then newBelief else s.variableMarginals j }
    else s
  | none => s

/-- `updateBeliefs` (`bayes.ts` lines 204-226): the loop over all nodes. -/
def updateBeliefs (s : DState) : DState :=
  (List.range s.nodes.length).foldl updateBeliefStep s

/-- `Math.max(...xs)` over a possibly empty spread (empty gives
`-Infinity`). -/
def jsMaxList (xs : List ℝ) : LReal :=
  xs.foldl (fun a x => a.max (.fin x)) .negInf

/-- The ids of the variable nodes, in node order (the index space of the
source's `nodes.filter(node => node.type === VARIABLE)`). -/
def variableIds (s : DState) : List ℕ :=
  (List.range s.nodes.length).filter (fun id =>
    (s.nodes.get? id).elim false (fun nd => nd.type = .VARIABLE))

/-- The convergence measure of one `runIterations` sweep (`bayes.ts` lines
237-242): the maximum absolute belief change across all variables, starting
from 0 (so a variable with an empty belief, whose inner spread-`max` is
`-Infinity`, contributes nothing). -/
def dmaxDiff (s : DState) (oldBeliefs : List (List ℝ)) : ℝ :=
  ((variableIds s).zip oldBeliefs).foldl (fun maxDiff p =>
    match jsMaxList ((s.currentBelief p.1).mapIdx (fun i b => |b - p.2.getD i 0|)) with
    | .negInf => maxDiff
    | .fin d => maxDiff ⊔ d) 0

/-- The fuel-indexed loop of `runIterations` (`bayes.ts` lines 228-250);
`remaining` counts iterations left, so the printed iteration number `i + 1`
is `maxIterations - remaining`. -/
def runIterationsAux (maxIterations : ℕ) (tolerance : ℝ) : ℕ → DState → DState
  | 0, s => { s with log := s.log ++ [s!"Did not converge after {maxIterations} iterations"] }
  | remaining + 1, s =>
    let oldBeliefs := (variableIds s).map (fun id => s.currentBelief id)
    let s1 := updateBeliefs (updateAllMessages s)
    if dmaxDiff s1 oldBeliefs < tolerance then
      { s1 with log := s1.log ++ [s!"Converged after {maxIterations - remaining} iterations"] }
    else runIterationsAux maxIterations tolerance remaining s1

/-- `runIterations` (`bayes.ts` lines 228-250): up to `maxIterations`
synchronous sweeps with early exit once the maximum belief change drops
below `tolerance`.  The outcome is reported only through `console.log`
(modelled by the `log` field); the method's return value is
`runIterationsReturnValue`. -/
def runIterations (maxIterations : ℕ) (tolerance : ℝ) (s : DState) : DState :=
  runIterationsAux maxIterations tolerance maxIterations s

/-- The value `runIterations` hands back to its caller: the TS signature is
`runIterations(...): void`, so the caller receives `undefined` (here `()`)
whatever the outcome was. -/
def runIterationsReturnValue (_maxIterations : ℕ) (_tolerance : ℝ) (_s : DState) :
    Unit := ()

/-- `this.graph.nodes.find(n => n.name === nodeId)`: the first node with the
given name, as (dense id, static data). -/
def findNode (s : DState) (nodeId : String) : Option (ℕ × DNode) :=
  match (List.range s.nodes.length).find? (fun id =>
    (s.nodes.get? id).elim false (fun nd => nd.name = nodeId)) with
  | some id => (s.nodes.get? id).map (fun nd => (id, nd))
  | none => none

/-- `setEvidence` (`bayes.ts` lines 257-274): look the node up by name; on an
unknown name or a factor, return with no state change at all; otherwise
record the evidence, force the belief to the one-hot vector at the observed
value, set the log-belief to its 0 / `-Infinity` form, refresh the cached
marginal, and overwrite the variable's current and next outgoing messages to
every neighboring factor with the one-hot vector. -/
def setEvidence (nodeId : String) (value : ℝ) (s : DState) : DState :=
  match findNode s nodeId with
  | some (id, nd) =>
    if nd.type = .VARIABLE then
      let oneHot := nd.possibleValues.map (fun v => if v = value then (1 : ℝ) else 0)
      { s with
        evidence := fun j => if j = id then some value else s.evidence j
        currentBelief := fun j => if j = id then oneHot else s.currentBelief j
        logBelief := fun j =>
          if j = id then oneHot.map (fun v => if v = 1 then .fin 0 else .negInf)
          else s.logBelief j
        variableMarginals := fun j => if j = id then oneHot else s.variableMarginals j
        messages := fun a b =>
          if a = id ∧ (s.neighbors id).contains b then oneHot else s.messages a b
        nextMessages := fun a b =>
          if a = id ∧ (s.neighbors id).contains b then oneHot else s.nextMessages a b }
    else s
  | none => s

/-- `getBeliefs` (`bayes.ts` lines 281-287): the belief vector of a variable,
or the thrown `Error` naming the offending node. -/
def getBeliefs (s : DState) (nodeId : String) : Except String (List ℝ) :=
  match findNode s nodeId with
  | some (id, nd) =>
    if nd.type = .VARIABLE then .ok (s.currentBelief id)
    else .error ("Cannot get beliefs from non-variable node: " ++ nodeId)
  | none => .error ("Cannot get beliefs from non-variable node: " ++ nodeId)

/-- `getLogBeliefs` (`bayes.ts` lines 294-300): the log-belief vector of a
variable, or the thrown `Error` naming the offending node. -/
def getLogBeliefs (s : DState) (nodeId : String) : Except String (List LReal) :=
  match findNode s nodeId with
  | some (id, nd) =>
    if nd.type = .VARIABLE then .ok (s.logBelief id)
    else .error ("Cannot get beliefs from non-variable node: " ++ nodeId)
  | none => .error ("Cannot get beliefs from non-variable node: " ++ nodeId)

/-! ## Gaussian engine (`gaussian.ts`) -/

/-- Raw input node for the Gaussian engine (`GaussianNodeInput`). -/
inductive GInputNode where
  | variable (mean variance : ℝ)
  | factor (potentialMean : List ℝ) (potentialPrecision : List (List ℝ))

/-- The kind tag of a raw Gaussian input node. -/
def GInputNode.type : GInputNode → GraphType
  | .variable _ _ => .VARIABLE
  | .factor _ _ => .FACTOR

/-- Raw Gaussian factor-graph input. -/
structure GInput where
  nodes : List (String × GInputNode)
  edges : List (String × String)

/-- Static data of a normalized Gaussian node (`GaussianVariable` /
`GaussianFactor` minus the mutable `currentMean` / `currentVariance`). -/
structure GNode where
  name : String
  type : GraphType
  mean : ℝ := 0
  variance : ℝ := 0
  potentialMean : List ℝ := []
  potentialPrecision : List (List ℝ) := []

/-- Result of the Gaussian `processGraph`. -/
structure GNormalized where
  nodes : List GNode
  edges : List (ℕ × ℕ)
  neighbors : ℕ → List ℕ
  errors : List String

/-- `GaussianBeliefPropagation.processGraph` (`gaussian.ts` lines 58-95):
identical pipeline to the discrete normalizer — positional ids, dropped
unknown-name edges, doubled directions, kind-checked adjacency. -/
def gprocessGraph (g : GInput) : GNormalized :=
  let nodes := g.nodes.map (fun p =>
    match p.2 with
    | .variable m v => { name := p.1, type := .VARIABLE, mean := m, variance := v : GNode }
    | .factor pm pp =>
      { name := p.1, type := .FACTOR, potentialMean := pm, potentialPrecision := pp : GNode })
  let edges := resolveEdges (g.nodes.map Prod.fst) g.edges
  let adj := buildAdjacency (nodes.map GNode.type) edges
  { nodes := nodes, edges := edges, neighbors := adj.1, errors := adj.2 }

/-- The full mutable state of a `GaussianBeliefPropagation` instance:
(mean, precision) message matrices for the current and next generation,
per-variable current beliefs, damping, evidence and the `console.log`
lines. -/
structure GState where
  nodes : List GNode
  neighbors : ℕ → List ℕ
  msgMean : ℕ → ℕ → ℝ
  msgPrecision : ℕ → ℕ → ℝ
  nextMean : ℕ → ℕ → ℝ
  nextPrecision : ℕ → ℕ → ℝ
  currentMean : ℕ → ℝ
  currentVariance : ℕ → ℝ
  dampingFactor : ℝ
  evidence : ℕ → Option (ℝ × ℝ)
  log : List String

/-- The precision matrix of the factor with id `id`. -/
def GState.potentialPrecision (s : GState) (id : ℕ) : List (List ℝ) :=
  match s.nodes.get? id with
  | some nd => nd.potentialPrecision
  | none => []

/-- The potential mean vector of the factor with id `id`. -/
def GState.potentialMean (s : GState) (id : ℕ) : List ℝ :=
  match s.nodes.get? id with
  | some nd => nd.potentialMean
  | none => []

/-- The `GaussianBeliefPropagation` constructor (`gaussian.ts` lines 43-56
plus `initializeMessages`, lines 97-114): zero-filled message matrices except
that each variable's outgoing slots hold (prior mean, 1/prior variance);
current beliefs start at the priors. -/
def gconstruct (g : GInput) (damping : ℝ) : GState :=
  let pg := gprocessGraph g
  { nodes := pg.nodes
    neighbors := pg.neighbors
    msgMean := fun a b =>
      match pg.nodes.get? a with
      | some nd =>
        if nd.type = .VARIABLE ∧ (pg.neighbors a).contains b then nd.mean else 0
      | none => 0
    msgPrecision := fun a b =>
      match pg.nodes.get? a with
      | some nd =>
        if nd.type = .VARIABLE ∧ (pg.neighbors a).contains b then 1 / nd.variance else 0
      | none => 0
    nextMean := fun _ _ => 0
    nextPrecision := fun _ _ => 0
    currentMean := fun id => (pg.nodes.get? id).elim 0 GNode.mean
    currentVariance := fun id => (pg.nodes.get? id).elim 0 GNode.variance
    dampingFactor := damping
    evidence := fun _ => none
    log := [] }

/-- `.reduce((p, c) => p + c)` with no initial value: JS throws a `TypeError`
on an empty array, modelled as `none`. -/
def jsReduceSum (l : List ℝ) : Option ℝ :=
  match l with
  | [] => none
  | x :: xs => some (xs.foldl (· + ·) x)

/-- `updateVariableToFactorMessage` (`gaussian.ts` lines 116-136): for an
evidenced variable write (evidence mean, 1/evidence variance); otherwise sum
precisions and precision-weighted means of all incoming messages from the
*other* neighboring factors — via initial-value-less `reduce`s, which throw
(`none`) when there is no other neighbor — and write (weighted mean / total
precision when positive else 0, total precision). -/
def updateVariableToFactorMessageG (s : GState) (vid fid : ℕ) : Option GState :=
  match s.evidence vid with
  | some ev =>
    some { s with
      nextMean := fun a b => if a = vid ∧ b = fid then ev.1 else s.nextMean a b
      nextPrecision := fun a b =>
        if a = vid ∧ b = fid then 1 / ev.2 else s.nextPrecision a b }
  | none =>
    match jsReduceSum
        (((s.neighbors vid).filter (· ≠ fid)).map (fun n => s.msgPrecision n vid)) with
    | none => none
    | some totalPrecision =>
      match jsReduceSum (((s.neighbors vid).filter (· ≠ fid)).map
          (fun n => s.msgPrecision n vid * s.msgMean n vid)) with
      | none => none
      | some weightedMean =>
        some { s with
          nextPrecision := fun a b =>
            if a = vid ∧ b = fid then totalPrecision else s.nextPrecision a b
          nextMean := fun a b =>
            if a = vid ∧ b = fid then
              if 0 < totalPrecision then weightedMean / totalPrecision else 0
            else s.nextMean a b }

/-- mathjs `Lambda.get([i, j])`.  The indices the source reads are always in
range for a well-formed factor; out-of-range reads default to 0 here where
mathjs would throw. -/
def matGet (m : List (List ℝ)) (i j : ℕ) : ℝ := (m.getD i []).getD j 0

/-- Component `i` of the information vector η = Λ·mean
(mathjs `multiply(Lambda, matrix(mean))` followed by `.get([i])`). -/
def matVecGet (m : List (List ℝ)) (v : List ℝ) (i : ℕ) : ℝ :=
  ((m.getD i []).zipWith (· * ·) v).sum

/-- `updateFactorToVariableMessage` (`gaussian.ts` lines 138-157): with
`idx` the target's first position among the factor's neighbors, outgoing
precision is `Λ[idx,idx]` and outgoing mean is
`(η[idx] - Σ_{j≠idx} Λ[idx,j]·incoming_mean[j]) / Λ[idx,idx]` when the
precision is positive, else 0; incoming means are read from the
current-generation `messages` buffer. -/
def updateFactorToVariableMessageG (s : GState) (fid vid : ℕ) : GState :=
  let nbrs := s.neighbors fid
  let idx := nbrs.indexOf vid
  let Lambda := s.potentialPrecision fid
  let precSum := ((List.range nbrs.length).filter (· ≠ idx)).foldl
    (fun acc j => acc + matGet Lambda idx j * s.msgMean (nbrs.getD j 0) fid) 0
  let precision := matGet Lambda idx idx
  let meanNumerator := matVecGet Lambda (s.potentialMean fid) idx - precSum
  { s with
    nextPrecision := fun a b =>
      if a = fid ∧ b = vid then precision else s.nextPrecision a b
    nextMean := fun a b =>
      if a = fid ∧ b = vid then
        if 0 < precision then meanNumerator / precision else 0
      else s.nextMean a b }

/-- One node of the variable→factor half of the Gaussian sweep; any single
update may throw, aborting the sweep. -/
def gsweepVariableStep (acc : Option GState) (id : ℕ) : Option GState :=
  acc.bind (fun t =>
    match t.nodes.get? id with
    | some nd =>
      if nd.type = .VARIABLE then
        (t.neighbors id).foldl
          (fun u fid => u.bind (fun v => updateVariableToFactorMessageG v id fid))
          (some t)
      else some t
    | none => some t)

/-- The variable→factor half of the Gaussian sweep (`gaussian.ts` lines
161-168). -/
def gsweepVariablePhase (s : GState) : Option GState :=
  (List.range s.nodes.length).foldl gsweepVariableStep (some s)

/-- The factor→variable half of the Gaussian sweep (`gaussian.ts` lines
170-177). -/
def gsweepFactorPhase (s : GState) : GState :=
  (List.range s.nodes.length).foldl (fun t id =>
    match t.nodes.get? id with
    | some nd =>
      if nd.type = .FACTOR then
        (t.neighbors id).foldl (fun u vid => updateFactorToVariableMessageG u id vid) t
      else t
    | none => t) s

/-- The damping pass plus buffer swap ending the Gaussian sweep
(`gaussian.ts` lines 179-195): over every in-range (i, j) the next-message
entries become `damping·current + (1 - damping)·next` — note the blend reads
the damping factor against the *current* (old) value — after which the
buffers are exchanged.  (The source's `isNaN` skip never fires in this
real-number model, where uninitialized slots hold 0, not `NaN`.) -/
def gaussianApplyDamping (s : GState) : GState :=
  let n := s.nodes.length
  { s with
    msgMean := fun i j =>
      if i < n ∧ j < n then
        s.dampingFactor * s.msgMean i j + (1 - s.dampingFactor) * s.nextMean i j
      else s.nextMean i j
    msgPrecision := fun i j =>
      if i < n ∧ j < n then
        s.dampingFactor * s.msgPrecision i j +
          (1 - s.dampingFactor) * s.nextPrecision i j
      else s.nextPrecision i j
    nextMean := s.msgMean
    nextPrecision := s.msgPrecision }

/-- `updateAllMessages` (`gaussian.ts` lines 160-196): all variable→factor
messages (any of which may throw), then all factor→variable messages, then
the damping pass, then the buffer swap. -/
def updateAllMessagesG (s : GState) : Option GState :=
  (gsweepVariablePhase s).map (fun t1 => gaussianApplyDamping (gsweepFactorPhase t1))

/-- One body of the Gaussian `updateBeliefs` loop (`gaussian.ts` lines
198-225) at node `id`: for a non-evidenced variable, sum incoming precisions
and precision-weighted means; when the total precision is positive the
belief is (weighted mean, 1/total), each guarded by the `1e-10` constant,
otherwise the belief reverts to the prior. -/
def updateBeliefStepG (t : GState) (id : ℕ) : GState :=
  match t.nodes.get? id with
  | some nd =>
    if nd.type = .VARIABLE then
      match t.evidence id with
      | some _ => t
      | none =>
        let sums := (t.neighbors id).foldl (fun acc nb =>
          (acc.1 + t.msgPrecision nb id,
           acc.2 + t.msgPrecision nb id * t.msgMean nb id)) ((0 : ℝ), (0 : ℝ))
        if 0 < sums.1 then
          { t with
            currentVariance := fun j =>
              if j = id then 1 / (sums.1 + 1e-10) else t.currentVariance j
            currentMean := fun j =>
              if j = id then sums.2 / (sums.1 + 1e-10) else t.currentMean j }
        else
          { t with
            currentVariance := fun j =>
              if j = id then nd.variance else t.currentVariance j
            currentMean := fun j => if j = id then nd.mean else t.currentMean j }
    else t
  | none => t

/-- `updateBeliefs` (`gaussian.ts` lines 198-225): the loop over all
nodes. -/
def updateBeliefsG (s : GState) : GState :=
  (List.range s.nodes.length).foldl updateBeliefStepG s

/-- The ids of the Gaussian variable nodes, in node order. -/
def gvariableIds (s : GState) : List ℕ :=
  (List.range s.nodes.length).filter (fun id =>
    (s.nodes.get? id).elim false (fun nd => nd.type = .VARIABLE))

/-- The convergence measure of one Gaussian sweep (`gaussian.ts` lines
240-251): the running maximum of |Δmean| and |Δvariance| across the
variables, paired positionally with the saved old values. -/
def gmaxDiff (s : GState) (oldMeans oldVariances : List ℝ) : ℝ :=
  (gvariableIds s).enum.foldl (fun maxDiff p =>
    maxDiff ⊔ |s.currentMean p.2 - oldMeans.getD p.1 0| ⊔
      |s.currentVariance p.2 - oldVariances.getD p.1 0|) 0

/-- The fuel-indexed loop of the Gaussian `runIterations` (`gaussian.ts`
lines 227-259); a thrown sweep aborts the whole call (`none`), and the
printed iteration number `i + 1` is `maxIterations - remaining`. -/
def runIterationsAuxG (maxIterations : ℕ) (tolerance : ℝ) : ℕ → GState → Option GState
  | 0, s =>
    some { s with log := s.log ++ [s!"Did not converge after {maxIterations} iterations"] }
  | remaining + 1, s =>
    let oldMeans := (gvariableIds s).map s.currentMean
    let oldVariances := (gvariableIds s).map s.currentVariance
    (updateAllMessagesG s).bind (fun t =>
      let s1 := updateBeliefsG t
      if gmaxDiff s1 oldMeans oldVariances < tolerance then
        some { s1 with
          log := s1.log ++ [s!"Converged after {maxIterations - remaining} iterations"] }
      else runIterationsAuxG maxIterations tolerance remaining s1)

/-- `runIterations` (`gaussian.ts` lines 227-259): up to `maxIterations`
sweeps with early exit below `tolerance`; the outcome is reported only via
`console.log`, and the method returns no value
(`runIterationsReturnValueG`). -/
def runIterationsG (maxIterations : ℕ) (tolerance : ℝ) (s : GState) : Option GState :=
  runIterationsAuxG maxIterations tolerance maxIterations s

/-- The caller-visible return value of the Gaussian `runIterations` when it
returns at all: `undefined`, whatever the outcome. -/
def runIterationsReturnValueG (_maxIterations : ℕ) (_tolerance : ℝ) (_s : GState) :
    Unit := ()

/-- `this.graph.nodes.find(n => n.name === nodeId)` for the Gaussian
engine. -/
def findNodeG (s : GState) (nodeId : String) : Option (ℕ × GNode) :=
  match (List.range s.nodes.length).find? (fun id =>
    (s.nodes.get? id).elim false (fun nd => nd.name = nodeId)) with
  | some id => (s.nodes.get? id).map (fun nd => (id, nd))
  | none => none

/-- `setEvidence` (`gaussian.ts` lines 267-285): on an unknown name or a
factor, a silent no-op; otherwise record (mean, variance), force the current
belief to it, and overwrite the variable's current and next outgoing
messages to every neighboring factor with (mean, 1/variance). -/
def setEvidenceG (nodeId : String) (mean variance : ℝ) (s : GState) : GState :=
  match findNodeG s nodeId with
  | some (id, nd) =>
    if nd.type = .VARIABLE then
      { s with
        evidence := fun j => if j = id then some (mean, variance) else s.evidence j
        currentMean := fun j => if j = id then mean else s.currentMean j
        currentVariance := fun j => if j = id then variance else s.currentVariance j
        msgMean := fun a b =>
          if a = id ∧ (s.neighbors id).contains b then mean else s.msgMean a b
        msgPrecision := fun a b =>
          if a = id ∧ (s.neighbors id).contains b then 1 / variance
          else s.msgPrecision a b
        nextMean := fun a b =>
          if a = id ∧ (s.neighbors id).contains b then mean else s.nextMean a b
        nextPrecision := fun a b =>
          if a = id ∧ (s.neighbors id).contains b then 1 / variance
          else s.nextPrecision a b }
    else s
  | none => s

/-- `getBeliefs` (`gaussian.ts` lines 292-298): the (mean, variance) belief
of a variable, or the thrown `Error` naming the offending node. -/
def getBeliefsG (s : GState) (nodeId : String) : Except String (ℝ × ℝ) :=
  match findNodeG s nodeId with
  | some (id, nd) =>
    if nd.type = .VARIABLE then .ok (s.currentMean id, s.currentVariance id)
    else .error ("Cannot get beliefs from non-variable node: " ++ nodeId)
  | none => .error ("Cannot get beliefs from non-variable node: " ++ nodeId)

/-! ## General helper lemmas -/

/-- Fold preservation: a property stable under each step holds after the
whole fold. -/
theorem foldl_preserve {σ α : Type} (P : σ → Prop) (f : σ → α → σ)
    (l : List α) (s : σ) (h0 : P s) (h : ∀ t a, P t → P (f t a)) :
    P (l.foldl f s) := by
  induction l generalizing s with
  | nil => exact h0
  | cons a l ih => exact ih _ (h _ _ h0)

/-- The source's running-sum loops (`foldl (+)` from a seed) compute
`seed + sum`. -/
theorem foldl_add_eq_sum (l : List ℝ) (x : ℝ) : l.foldl (· + ·) x = x + l.sum := by
  induction l generalizing x with
  | nil => simp
  | cons a l ih => simp [ih, List.sum_cons]; ring

/-- `LReal.max a b` is `-Infinity` exactly when both arguments are. -/
theorem LReal.max_eq_negInf {a b : LReal} :
    a.max b = .negInf ↔ a = .negInf ∧ b = .negInf := by
  cases a <;> cases b <;> simp [LReal.max]

/-- The maximum `Math.max(...logValues)` computes: `-Infinity` on an empty
spread, else the fold of binary max from the first element. -/
def lrListMax : List LReal → LReal
  | [] => .negInf
  | v :: vs => vs.foldl LReal.max v

/-- `lrListMax` is `-Infinity` exactly when every element is. -/
theorem lrListMax_eq_negInf (l : List LReal) :
    lrListMax l = .negInf ↔ ∀ v ∈ l, v = .negInf := by
  cases l with
  | nil => simp [lrListMax]
  | cons v vs =>
    simp only [lrListMax, List.mem_cons]
    constructor
    · intro h
      have key : ∀ (vs : List LReal) (a : LReal), vs.foldl LReal.max a = .negInf →
          a = .negInf ∧ ∀ w ∈ vs, w = .negInf := by
        intro vs
        induction vs with
        | nil => intro a h; exact ⟨h, by simp⟩
        | cons w ws ih =>
          intro a h
          obtain ⟨hmax, hws⟩ := ih _ h
          obtain ⟨ha, hw⟩ := LReal.max_eq_negInf.1 hmax
          exact ⟨ha, by
            intro u hu
            rcases List.mem_cons.1 hu with rfl | hu
            · exact hw
            · exact hws u hu⟩
      obtain ⟨ha, hvs⟩ := key vs v h
      intro u hu
      rcases hu with rfl | hu
      · exact ha
      · exact hvs u hu
    · intro h
      have key : ∀ (vs : List LReal) (a : LReal), a = .negInf →
          (∀ w ∈ vs, w = .negInf) → vs.foldl LReal.max a = .negInf := by
        intro vs
        induction vs with
        | nil => intro a ha _; exact ha
        | cons w ws ih =>
          intro a ha hw
          have hw0 : w = .negInf := hw w (by simp)
          refine ih _ ?_ (fun u hu => hw u (by simp [hu]))
          rw [ha, hw0]; rfl
      exact key vs v (h v (Or.inl rfl)) (fun u hu => h u (Or.inr hu))

/-! ## Claim C9: `logSumExp` characterization -/

/-- Spec-side formula for the non-degenerate case of `logSumExp`, written
from the claim: `max + log(sum(exp(v - max)))` over the list. -/
def logSumExpSpec (l : List LReal) (maxLogValue : ℝ) : ℝ :=
  maxLogValue + Real.log ((l.map (fun v => (v.subFin maxLogValue).exp)).sum)

/-- C9.  `logSumExp` returns the floor constant `LOG_EPSILON = 1e-10` for an
empty input list and also whenever the maximum of the inputs is `-Infinity`
(equivalently: all inputs are `-Infinity`, i.e. zero-probability, so the
result is never `NaN`); for every other input it returns
`max + log(sum(exp(v - max)))` over the list. -/
theorem logSumExp_characterization :
    logSumExp [] = LOG_EPSILON ∧ LOG_EPSILON = 1e-10 ∧
    (∀ l : List LReal, lrListMax l = .negInf ↔ ∀ v ∈ l, v = .negInf) ∧
    (∀ l : List LReal, l ≠ [] → lrListMax l = .negInf → logSumExp l = LOG_EPSILON) ∧
    (∀ (l : List LReal) (M : ℝ), lrListMax l = .fin M →
      logSumExp l = logSumExpSpec l M) := by
  refine ⟨rfl, rfl, lrListMax_eq_negInf, ?_, ?_⟩
  · intro l hne hmax
    cases l with
    | nil => exact absurd rfl hne
    | cons v vs =>
      simp only [lrListMax] at hmax
      simp only [logSumExp, hmax]
  · intro l M hmax
    cases l with
    | nil => simp [lrListMax] at hmax
    | cons v vs =>
      simp only [lrListMax] at hmax
      simp only [logSumExp, hmax, logSumExpSpec]
      have : ∀ (l : List LReal) (x : ℝ),
          l.foldl (fun sum lv => sum + (lv.subFin M).exp) x =
            x + (l.map (fun v => (v.subFin M).exp)).sum := by
        intro l
        induction l with
        | nil => simp
        | cons a l ih => intro x; simp [ih, List.sum_cons]; ring
      rw [this]
      simp

/-- Witness for C9: the degenerate all-`-Infinity` case at `[-∞]` and the
ordinary case at `[0]`. -/
theorem logSumExp_characterization_witness :
    logSumExp [.negInf] = LOG_EPSILON ∧ logSumExp [.fin 0] = logSumExpSpec [.fin 0] 0 :=
  ⟨logSumExp_characterization.2.2.2.1 [.negInf] (by simp) rfl,
   logSumExp_characterization.2.2.2.2 [.fin 0] 0 rfl⟩

/-! ## Claim C7: lookup errors -/

/-- Looking `nodeId` up in the discrete node arena fails to produce a
variable: the name is unknown, or it names a factor. -/
def lookupNotVariable (s : DState) (nodeId : String) : Prop :=
  ∀ p, findNode s nodeId = some p → p.2.type = .FACTOR

/-- Looking `nodeId` up in the Gaussian node arena fails to produce a
variable. -/
def lookupNotVariableG (s : GState) (nodeId : String) : Prop :=
  ∀ p, findNodeG s nodeId = some p → p.2.type = .FACTOR

/-- C7.  `getBeliefs` and `getLogBeliefs`, given a name that is unknown or
names a factor, throw an error identifying the offending name; `setEvidence`
given such a name returns normally and leaves the whole engine state (the
entire state record: beliefs, messages, evidence map) unchanged — in both
engines. -/
theorem lookup_error_behavior :
    (∀ (s : DState) (nodeId : String), lookupNotVariable s nodeId →
      getBeliefs s nodeId =
        .error ("Cannot get beliefs from non-variable node: " ++ nodeId) ∧
      getLogBeliefs s nodeId =
        .error ("Cannot get beliefs from non-variable node: " ++ nodeId) ∧
      ∀ value : ℝ, setEvidence nodeId value s = s) ∧
    (∀ (gs : GState) (nodeId : String), lookupNotVariableG gs nodeId →
      getBeliefsG gs nodeId =
        .error ("Cannot get beliefs from non-variable node: " ++ nodeId) ∧
      ∀ mean variance : ℝ, setEvidenceG nodeId mean variance gs = gs) := by
  constructor
  · intro s nodeId h
    refine ⟨?_, ?_, ?_⟩
    · unfold getBeliefs
      cases hf : findNode s nodeId with
      | none => rfl
      | some p =>
        have := h p hf
        simp [this]
    · unfold getLogBeliefs
      cases hf : findNode s nodeId with
      | none => rfl
      | some p =>
        have := h p hf
        simp [this]
    · intro value
      unfold setEvidence
      cases hf : findNode s nodeId with
      | none => rfl
      | some p =>
        have := h p hf
        simp [this]
  · intro gs nodeId h
    constructor
    · unfold getBeliefsG
      cases hf : findNodeG gs nodeId with
      | none => rfl
      | some p =>
        have := h p hf
        simp [this]
    · intro mean variance
      unfold setEvidenceG
      cases hf : findNodeG gs nodeId with
      | none => rfl
      | some p =>
        have := h p hf
        simp [this]

/-- A concrete discrete state holding a single factor node, used by
witnesses and counterexamples. -/
def dfactorState : DState where
  nodes := [{ name := "F", type := .FACTOR }]
  neighbors := fun _ => []
  currentBelief := fun _ => []
  logBelief := fun _ => []
  messages := fun _ _ => []
  nextMessages := fun _ _ => []
  variableMarginals := fun _ => []
  dampingFactor := 0
  evidence := fun _ => none
  log := []

/-- A concrete Gaussian state holding a single factor node. -/
def gfactorState : GState where
  nodes := [{ name := "F", type := .FACTOR }]
  neighbors := fun _ => []
  msgMean := fun _ _ => 0
  msgPrecision := fun _ _ => 0
  nextMean := fun _ _ => 0
  nextPrecision := fun _ _ => 0
  currentMean := fun _ => 0
  currentVariance := fun _ => 0
  dampingFactor := 0
  evidence := fun _ => none
  log := []

/-- Witness for C7 at the factor node "F" of the one-factor states: both
getters throw the name-bearing error and `setEvidence` is an exact no-op. -/
theorem lookup_error_behavior_witness :
    getBeliefs dfactorState "F" =
      .error ("Cannot get beliefs from non-variable node: " ++ "F") ∧
    getLogBeliefs dfactorState "F" =
      .error ("Cannot get beliefs from non-variable node: " ++ "F") ∧
    setEvidence "F" 1 dfactorState = dfactorState ∧
    getBeliefsG gfactorState "F" =
      .error ("Cannot get beliefs from non-variable node: " ++ "F") ∧
    setEvidenceG "F" 0 1 gfactorState = gfactorState := by
  have hfd : findNode dfactorState "F" = some (0, { name := "F", type := .FACTOR }) := rfl
  have hfg : findNodeG gfactorState "F" = some (0, { name := "F", type := .FACTOR }) := rfl
  have h1 := lookup_error_behavior.1 dfactorState "F" (by
    intro p hp
    rw [hfd] at hp
    cases hp
    rfl)
  have h2 := lookup_error_behavior.2 gfactorState "F" (by
    intro p hp
    rw [hfg] at hp
    cases hp
    rfl)
  exact ⟨h1.1, h1.2.1, h1.2.2 1, h2.1, h2.2 0 1⟩

/-! ## Claim C2: evidenced beliefs are invariant under `runIterations` -/

/-- Agreement on every discrete field except the two message buffers:
what a message sweep may not change. -/
def DSameCore (s t : DState) : Prop :=
  t.nodes = s.nodes ∧ t.neighbors = s.neighbors ∧ t.currentBelief = s.currentBelief ∧
  t.logBelief = s.logBelief ∧ t.variableMarginals = s.variableMarginals ∧
  t.evidence = s.evidence ∧ t.dampingFactor = s.dampingFactor ∧ t.log = s.log

theorem DSameCore.rfl_self (s : DState) : DSameCore s s :=
  ⟨rfl, rfl, rfl, rfl, rfl, rfl, rfl, rfl⟩

theorem DSameCore.comp {s t u : DState} (h1 : DSameCore s t) (h2 : DSameCore t u) :
    DSameCore s u := by
  obtain ⟨a1, a2, a3, a4, a5, a6, a7, a8⟩ := h1
  obtain ⟨b1, b2, b3, b4, b5, b6, b7, b8⟩ := h2
  exact ⟨b1.trans a1, b2.trans a2, b3.trans a3, b4.trans a4, b5.trans a5,
    b6.trans a6, b7.trans a7, b8.trans a8⟩

/-- `updateVariableToFactorMessage` only writes `nextMessages`. -/
theorem dv2f_core (s : DState) (vid fid : ℕ) :
    DSameCore s (updateVariableToFactorMessage s vid fid) := by
  unfold updateVariableToFactorMessage
  cases s.evidence vid <;> exact ⟨rfl, rfl, rfl, rfl, rfl, rfl, rfl, rfl⟩

/-- `updateFactorToVariableMessage` only writes `nextMessages`. -/
theorem df2v_core (s : DState) (fid vid : ℕ) :
    DSameCore s (updateFactorToVariableMessage s fid vid) :=
  ⟨rfl, rfl, rfl, rfl, rfl, rfl, rfl, rfl⟩

/-- The variable→factor phase leaves every non-message field unchanged. -/
theorem dsweepVariablePhase_core (s : DState) : DSameCore s (dsweepVariablePhase s) := by
  unfold dsweepVariablePhase
  exact foldl_preserve (DSameCore s) _ _ _ (DSameCore.rfl_self s) (by
    intro t id ht
    refine DSameCore.comp ht ?_
    cases hnd : t.nodes.get? id with
    | none => simp [hnd, DSameCore.rfl_self]
    | some nd =>
      by_cases hv : nd.type = GraphType.VARIABLE
      · simp only [hnd, hv, if_pos]
        exact foldl_preserve (DSameCore t) _ _ _ (DSameCore.rfl_self t)
          (fun u fid hu => DSameCore.comp hu (dv2f_core u id fid))
      · simp [hnd, hv, DSameCore.rfl_self])

/-- The factor→variable phase leaves every non-message field unchanged. -/
theorem dsweepFactorPhase_core (s : DState) : DSameCore s (dsweepFactorPhase s) := by
  unfold dsweepFactorPhase
  exact foldl_preserve (DSameCore s) _ _ _ (DSameCore.rfl_self s) (by
    intro t id ht
    refine DSameCore.comp ht ?_
    cases hnd : t.nodes.get? id with
    | none => simp [hnd, DSameCore.rfl_self]
    | some nd =>
      by_cases hv : nd.type = GraphType.FACTOR
      · simp only [hnd, hv, if_pos]
        exact foldl_preserve (DSameCore t) _ _ _ (DSameCore.rfl_self t)
          (fun u vid hu => DSameCore.comp hu (df2v_core u id vid))
      · simp [hnd, hv, DSameCore.rfl_self])

/-- A full discrete sweep leaves every non-message field unchanged. -/
theorem updateAllMessages_core (s : DState) : DSameCore s (updateAllMessages s) := by
  unfold updateAllMessages
  refine DSameCore.comp (dsweepVariablePhase_core s) ?_
  refine DSameCore.comp (dsweepFactorPhase_core _) ?_
  exact ⟨rfl, rfl, rfl, rfl, rfl, rfl, rfl, rfl⟩

/-- `updateBeliefStep` never touches nodes, adjacency, evidence, messages,
damping or the log. -/
theorem updateBeliefStep_static (s : DState) (id : ℕ) :
    (updateBeliefStep s id).nodes = s.nodes ∧
    (updateBeliefStep s id).neighbors = s.neighbors ∧
    (updateBeliefStep s id).evidence = s.evidence ∧
    (updateBeliefStep s id).messages = s.messages ∧
    (updateBeliefStep s id).nextMessages = s.nextMessages ∧
    (updateBeliefStep s id).dampingFactor = s.dampingFactor ∧
    (updateBeliefStep s id).log = s.log := by
  unfold updateBeliefStep
  cases hnd : s.nodes.get? id with
  | none => exact ⟨rfl, rfl, rfl, rfl, rfl, rfl, rfl⟩
  | some nd =>
    by_cases hv : nd.type = GraphType.VARIABLE <;> cases hev : s.evidence id <;>
      simp [hv, hev]

/-- `updateBeliefs` never touches nodes, adjacency, evidence, messages,
damping or the log. -/
theorem updateBeliefs_static (s : DState) :
    (updateBeliefs s).nodes = s.nodes ∧
    (updateBeliefs s).neighbors = s.neighbors ∧
    (updateBeliefs s).evidence = s.evidence ∧
    (updateBeliefs s).messages = s.messages ∧
    (updateBeliefs s).nextMessages = s.nextMessages ∧
    (updateBeliefs s).dampingFactor = s.dampingFactor ∧
    (updateBeliefs s).log = s.log := by
  unfold updateBeliefs
  exact foldl_preserve
    (fun t : DState => t.nodes = s.nodes ∧ t.neighbors = s.neighbors ∧
      t.evidence = s.evidence ∧ t.messages = s.messages ∧
      t.nextMessages = s.nextMessages ∧
      t.dampingFactor = s.dampingFactor ∧ t.log = s.log) _ _ _
    ⟨rfl, rfl, rfl, rfl, rfl, rfl, rfl⟩ (by
      intro t id ht
      obtain ⟨h1, h2, h3, h4, h5, h6, h7⟩ := ht
      obtain ⟨g1, g2, g3, g4, g5, g6, g7⟩ := updateBeliefStep_static t id
      exact ⟨g1.trans h1, g2.trans h2, g3.trans h3, g4.trans h4, g5.trans h5,
        g6.trans h6, g7.trans h7⟩)

/-- `updateBeliefs` keeps the belief and log-belief of an evidenced variable
untouched. -/
theorem updateBeliefStep_evidenced (t : DState) (id vid : ℕ)
    (h : (t.evidence vid).isSome) :
    (updateBeliefStep t id).currentBelief vid = t.currentBelief vid ∧
    (updateBeliefStep t id).logBelief vid = t.logBelief vid := by
  unfold updateBeliefStep
  cases hnd : t.nodes.get? id with
  | none => exact ⟨rfl, rfl⟩
  | some nd =>
    by_cases hv : nd.type = GraphType.VARIABLE
    · cases hev : t.evidence id with
      | some v => simp [hv, hev]
      | none =>
        have hne : vid ≠ id := by
          intro hid
          rw [hid, hev] at h
          simp at h
        simp [hv, hev, hne]
    · simp [hv]

theorem updateBeliefs_evidenced (s : DState) (vid : ℕ) (h : (s.evidence vid).isSome) :
    (updateBeliefs s).currentBelief vid = s.currentBelief vid ∧
    (updateBeliefs s).logBelief vid = s.logBelief vid := by
  unfold updateBeliefs
  have key := foldl_preserve
    (fun t => t.evidence = s.evidence ∧ t.currentBelief vid = s.currentBelief vid ∧
      t.logBelief vid = s.logBelief vid) updateBeliefStep (List.range s.nodes.length) s
    ⟨rfl, rfl, rfl⟩ (by
      intro t id ht
      obtain ⟨he, hb, hl⟩ := ht
      have hsome : (t.evidence vid).isSome := by rw [he]; exact h
      obtain ⟨sb, sl⟩ := updateBeliefStep_evidenced t id vid hsome
      exact ⟨((updateBeliefStep_static t id).2.2.1).trans he, sb.trans hb, sl.trans hl⟩)
  exact ⟨key.2.1, key.2.2⟩

/-- One full discrete iteration (sweep + belief update) keeps an evidenced
variable's beliefs and the evidence map unchanged. -/
theorem diteration_evidenced (s : DState) (vid : ℕ) (h : (s.evidence vid).isSome) :
    (updateBeliefs (updateAllMessages s)).currentBelief vid = s.currentBelief vid ∧
    (updateBeliefs (updateAllMessages s)).logBelief vid = s.logBelief vid ∧
    (updateBeliefs (updateAllMessages s)).evidence = s.evidence := by
  obtain ⟨_, _, hcb, hlb, _, hev, _, _⟩ := updateAllMessages_core s
  have h2 : ((updateAllMessages s).evidence vid).isSome := by rw [hev]; exact h
  obtain ⟨e1, e2⟩ := updateBeliefs_evidenced (updateAllMessages s) vid h2
  refine ⟨?_, ?_, ?_⟩
  · rw [e1, hcb]
  · rw [e2, hlb]
  · rw [(updateBeliefs_static (updateAllMessages s)).2.2.1, hev]

/-- The fuel-indexed discrete loop keeps an evidenced variable's beliefs
unchanged. -/
theorem runIterationsAux_evidenced (m : ℕ) (tol : ℝ) :
    ∀ (fuel : ℕ) (s : DState) (vid : ℕ), (s.evidence vid).isSome →
      (runIterationsAux m tol fuel s).currentBelief vid = s.currentBelief vid ∧
      (runIterationsAux m tol fuel s).logBelief vid = s.logBelief vid := by
  intro fuel
  induction fuel with
  | zero => intro s vid _; exact ⟨rfl, rfl⟩
  | succ rem ih =>
    intro s vid h
    obtain ⟨h1, h2, h3⟩ := diteration_evidenced s vid h
    have h4 : ((updateBeliefs (updateAllMessages s)).evidence vid).isSome := by
      rw [h3]; exact h
    obtain ⟨i1, i2⟩ := ih (updateBeliefs (updateAllMessages s)) vid h4
    simp only [runIterationsAux]
    by_cases hc :
        dmaxDiff (updateBeliefs (updateAllMessages s))
          ((variableIds s).map fun id => s.currentBelief id) < tol
    · simp only [hc, if_pos]
      exact ⟨h1, h2⟩
    · simp only [hc, if_neg, not_false_iff]
      exact ⟨i1.trans h1, i2.trans h2⟩

/-- Agreement on every Gaussian field except the message buffers. -/
def GSameCore (s t : GState) : Prop :=
  t.nodes = s.nodes ∧ t.neighbors = s.neighbors ∧ t.currentMean = s.currentMean ∧
  t.currentVariance = s.currentVariance ∧ t.evidence = s.evidence ∧
  t.dampingFactor = s.dampingFactor ∧ t.log = s.log

theorem GSameCore.rfl_self2 (s : GState) : GSameCore s s :=
  ⟨rfl, rfl, rfl, rfl, rfl, rfl, rfl⟩

theorem GSameCore.comp2 {s t u : GState} (h1 : GSameCore s t) (h2 : GSameCore t u) :
    GSameCore s u := by
  obtain ⟨a1, a2, a3, a4, a5, a6, a7⟩ := h1
  obtain ⟨b1, b2, b3, b4, b5, b6, b7⟩ := h2
  exact ⟨b1.trans a1, b2.trans a2, b3.trans a3, b4.trans a4, b5.trans a5,
    b6.trans a6, b7.trans a7⟩

/-- The Gaussian variable→factor update only writes the next-message
buffers, whenever it returns at all. -/
theorem gv2f_core (s : GState) (vid fid : ℕ) :
    ∀ t, updateVariableToFactorMessageG s vid fid = some t → GSameCore s t := by
  intro t h
  unfold updateVariableToFactorMessageG at h
  split at h
  · cases h; exact ⟨rfl, rfl, rfl, rfl, rfl, rfl, rfl⟩
  · split at h
    · cases h
    · split at h
      · cases h
      · cases h; exact ⟨rfl, rfl, rfl, rfl, rfl, rfl, rfl⟩

/-- The Gaussian factor→variable update only writes the next-message
buffers. -/
theorem gf2v_core (s : GState) (fid vid : ℕ) :
    GSameCore s (updateFactorToVariableMessageG s fid vid) :=
  ⟨rfl, rfl, rfl, rfl, rfl, rfl, rfl⟩

/-- One variable-phase step only writes the next-message buffers. -/
theorem gsweepVariableStep_core (u : GState) (id : ℕ) :
    ∀ t, gsweepVariableStep (some u) id = some t → GSameCore u t := by
  intro t h
  unfold gsweepVariableStep at h
  rw [Option.some_bind] at h
  have h' : (match u.nodes.get? id with
    | some nd =>
      if nd.type = .VARIABLE then
        (u.neighbors id).foldl
          (fun a fid => a.bind (fun v => updateVariableToFactorMessageG v id fid))
          (some u)
      else some u
    | none => some u) = some t := h
  clear h
  split at h'
  · split at h'
    · exact foldl_preserve
        (fun o : Option GState => ∀ t, o = some t → GSameCore u t) _ _ _
        (by intro t h; cases h; exact GSameCore.rfl_self2 u) (by
          intro acc2 fid hacc2
          cases acc2 with
          | none => intro t h; simp at h
          | some w =>
            intro t h
            rw [Option.some_bind] at h
            exact GSameCore.comp2 (hacc2 w rfl) (gv2f_core w id fid t h)) t h'
    · cases h'; exact GSameCore.rfl_self2 u
  · cases h'; exact GSameCore.rfl_self2 u

/-- The Gaussian variable phase only writes the next-message buffers. -/
theorem gsweepVariablePhase_core (s : GState) :
    ∀ t, gsweepVariablePhase s = some t → GSameCore s t := by
  unfold gsweepVariablePhase
  exact foldl_preserve (fun o : Option GState => ∀ t, o = some t → GSameCore s t)
    _ _ _ (by intro t h; cases h; exact GSameCore.rfl_self2 s) (by
      intro acc id hacc
      cases acc with
      | none =>
        intro t h
        unfold gsweepVariableStep at h
        simp at h
      | some u =>
        intro t h
        exact GSameCore.comp2 (hacc u rfl) (gsweepVariableStep_core u id t h))

/-- The Gaussian factor phase only writes the next-message buffers. -/
theorem gsweepFactorPhase_core (s : GState) : GSameCore s (gsweepFactorPhase s) := by
  unfold gsweepFactorPhase
  exact foldl_preserve (GSameCore s) _ _ _ (GSameCore.rfl_self2 s) (by
    intro t id ht
    refine GSameCore.comp2 ht ?_
    cases hnd : t.nodes.get? id with
    | none => simp [hnd, GSameCore.rfl_self2]
    | some nd =>
      by_cases hv : nd.type = GraphType.FACTOR
      · simp only [hnd, hv, if_pos]
        exact foldl_preserve (GSameCore t) _ _ _ (GSameCore.rfl_self2 t)
          (fun u vid hu => GSameCore.comp2 hu (gf2v_core u id vid))
      · simp [hnd, hv, GSameCore.rfl_self2])

/-- The whole Gaussian sweep only writes the message buffers, whenever it
returns at all. -/
theorem updateAllMessagesG_core (s : GState) :
    ∀ t, updateAllMessagesG s = some t → GSameCore s t := by
  intro t h
  unfold updateAllMessagesG at h
  cases hp : gsweepVariablePhase s with
  | none => rw [hp] at h; cases h
  | some t1 =>
    rw [hp] at h
    have h' : some (gaussianApplyDamping (gsweepFactorPhase t1)) = some t := h
    cases h'
    refine GSameCore.comp2 (gsweepVariablePhase_core s t1 hp) ?_
    refine GSameCore.comp2 (gsweepFactorPhase_core t1) ?_
    exact ⟨rfl, rfl, rfl, rfl, rfl, rfl, rfl⟩

/-- `updateBeliefStepG` never touches nodes, adjacency, evidence, messages,
damping or the log. -/
theorem updateBeliefStepG_static (s : GState) (id : ℕ) :
    (updateBeliefStepG s id).nodes = s.nodes ∧
    (updateBeliefStepG s id).neighbors = s.neighbors ∧
    (updateBeliefStepG s id).evidence = s.evidence ∧
    (updateBeliefStepG s id).msgMean = s.msgMean ∧
    (updateBeliefStepG s id).msgPrecision = s.msgPrecision ∧
    (updateBeliefStepG s id).nextMean = s.nextMean ∧
    (updateBeliefStepG s id).nextPrecision = s.nextPrecision ∧
    (updateBeliefStepG s id).dampingFactor = s.dampingFactor ∧
    (updateBeliefStepG s id).log = s.log := by
  unfold updateBeliefStepG
  cases hnd : s.nodes.get? id with
  | none => exact ⟨rfl, rfl, rfl, rfl, rfl, rfl, rfl, rfl, rfl⟩
  | some nd =>
    by_cases hv : nd.type = GraphType.VARIABLE
    · cases hev : s.evidence id with
      | some v => simp [hv, hev]
      | none =>
        by_cases hs : 0 < ((s.neighbors id).foldl (fun acc nb =>
            (acc.1 + s.msgPrecision nb id,
             acc.2 + s.msgPrecision nb id * s.msgMean nb id)) (0 : ℝ × ℝ)).1 <;>
          simp [hv, hev, hs]
    · simp [hv]

/-- `updateBeliefStepG` keeps the belief of an evidenced variable
untouched. -/
theorem updateBeliefStepG_evidenced (t : GState) (id vid : ℕ)
    (h : (t.evidence vid).isSome) :
    (updateBeliefStepG t id).currentMean vid = t.currentMean vid ∧
    (updateBeliefStepG t id).currentVariance vid = t.currentVariance vid := by
  unfold updateBeliefStepG
  cases hnd : t.nodes.get? id with
  | none => exact ⟨rfl, rfl⟩
  | some nd =>
    by_cases hv : nd.type = GraphType.VARIABLE
    · cases hev : t.evidence id with
      | some v => simp [hv, hev]
      | none =>
        have hne : vid ≠ id := by
          intro hid
          rw [hid, hev] at h
          simp at h
        by_cases hs : 0 < ((t.neighbors id).foldl (fun acc nb =>
            (acc.1 + t.msgPrecision nb id,
             acc.2 + t.msgPrecision nb id * t.msgMean nb id)) (0 : ℝ × ℝ)).1 <;>
          simp [hv, hev, hs, hne]
    · simp [hv]

/-- `updateBeliefsG` keeps the belief of an evidenced variable untouched and
never changes the evidence map or the log. -/
theorem updateBeliefsG_evidenced (s : GState) (vid : ℕ)
    (h : (s.evidence vid).isSome) :
    (updateBeliefsG s).currentMean vid = s.currentMean vid ∧
    (updateBeliefsG s).currentVariance vid = s.currentVariance vid ∧
    (updateBeliefsG s).evidence = s.evidence ∧
    (updateBeliefsG s).log = s.log := by
  unfold updateBeliefsG
  have key := foldl_preserve
    (fun t : GState => t.evidence = s.evidence ∧ t.currentMean vid = s.currentMean vid ∧
      t.currentVariance vid = s.currentVariance vid ∧ t.log = s.log)
    updateBeliefStepG (List.range s.nodes.length) s ⟨rfl, rfl, rfl, rfl⟩ (by
      intro t id ht
      obtain ⟨he, hm, hva, hl⟩ := ht
      have hsome : (t.evidence vid).isSome := by rw [he]; exact h
      obtain ⟨sm, sv⟩ := updateBeliefStepG_evidenced t id vid hsome
      have hst := updateBeliefStepG_static t id
      exact ⟨hst.2.2.1.trans he, sm.trans hm, sv.trans hva, hst.2.2.2.2.2.2.2.2.trans hl⟩)
  exact ⟨key.2.1, key.2.2.1, key.1, key.2.2.2⟩

/-- The fuel-indexed Gaussian loop keeps an evidenced variable's belief
unchanged whenever it returns at all. -/
theorem runIterationsAuxG_evidenced (m : ℕ) (tol : ℝ) :
    ∀ (fuel : ℕ) (s : GState) (vid : ℕ), (s.evidence vid).isSome →
      ∀ t, runIterationsAuxG m tol fuel s = some t →
      t.currentMean vid = s.currentMean vid ∧
      t.currentVariance vid = s.currentVariance vid := by
  intro fuel
  induction fuel with
  | zero =>
    intro s vid _ t h
    cases h
    exact ⟨rfl, rfl⟩
  | succ rem ih =>
    intro s vid h t ht
    simp only [runIterationsAuxG] at ht
    cases hu : updateAllMessagesG s with
    | none => rw [hu] at ht; cases ht
    | some u =>
      rw [hu, Option.some_bind] at ht
      obtain ⟨_, _, hcm, hcv, hev, _, _⟩ := updateAllMessagesG_core s u hu
      have hsome : (u.evidence vid).isSome := by rw [hev]; exact h
      obtain ⟨b1, b2, b3, _⟩ := updateBeliefsG_evidenced u vid hsome
      have hsome2 : ((updateBeliefsG u).evidence vid).isSome := by
        rw [b3]; exact hsome
      have hum : u.currentMean vid = s.currentMean vid := by rw [hcm]
      have huv : u.currentVariance vid = s.currentVariance vid := by rw [hcv]
      by_cases hc : gmaxDiff (updateBeliefsG u) ((gvariableIds s).map s.currentMean)
          ((gvariableIds s).map s.currentVariance) < tol
      · rw [if_pos hc] at ht
        cases ht
        exact ⟨b1.trans hum, b2.trans huv⟩
      · rw [if_neg hc] at ht
        obtain ⟨i1, i2⟩ := ih (updateBeliefsG u) vid hsome2 t ht
        exact ⟨(i1.trans b1).trans hum, (i2.trans b2).trans huv⟩

/-- C2.  For every variable on which `setEvidence` has been called (discrete
or Gaussian — more generally, any variable present in the evidence map), its
belief — the belief/log-belief vectors in the discrete engine, the
(mean, variance) pair in the Gaussian engine — is unchanged by any
subsequent `runIterations` call, for every `maxIterations` and `tolerance`
(for the Gaussian engine: whenever the call returns rather than throws);
invariance under any *number* of calls follows by applying the statement to
each call in turn. -/
theorem evidenced_beliefs_invariant :
    (∀ (s : DState) (vid maxIterations : ℕ) (tolerance : ℝ),
      (s.evidence vid).isSome →
      (runIterations maxIterations tolerance s).currentBelief vid =
        s.currentBelief vid ∧
      (runIterations maxIterations tolerance s).logBelief vid = s.logBelief vid) ∧
    (∀ (gs : GState) (vid maxIterations : ℕ) (tolerance : ℝ) (t : GState),
      (gs.evidence vid).isSome →
      runIterationsG maxIterations tolerance gs = some t →
      t.currentMean vid = gs.currentMean vid ∧
      t.currentVariance vid = gs.currentVariance vid) := by
  constructor
  · intro s vid m tol h
    exact runIterationsAux_evidenced m tol m s vid h
  · intro gs vid m tol t h ht
    exact runIterationsAuxG_evidenced m tol m gs vid h t ht

/-- A concrete discrete state with one evidenced binary variable. -/
def dEvidState : DState where
  nodes := [{ name := "A", type := .VARIABLE, possibleValues := [0, 1] }]
  neighbors := fun _ => []
  currentBelief := fun _ => [0, 1]
  logBelief := fun _ => [.negInf, .fin 0]
  messages := fun _ _ => []
  nextMessages := fun _ _ => []
  variableMarginals := fun _ => [0, 1]
  dampingFactor := 0
  evidence := fun i => if i = 0 then some 1 else none
  log := []

/-- A concrete Gaussian state with one evidenced variable. -/
def gEvidState : GState where
  nodes := [{ name := "A", type := .VARIABLE, mean := 2, variance := 1 }]
  neighbors := fun _ => []
  msgMean := fun _ _ => 0
  msgPrecision := fun _ _ => 0
  nextMean := fun _ _ => 0
  nextPrecision := fun _ _ => 0
  currentMean := fun _ => 2
  currentVariance := fun _ => 1
  dampingFactor := 0
  evidence := fun i => if i = 0 then some (2, 1) else none
  log := []

/-- Witness for C2: the evidenced beliefs of the two one-variable states
survive a concrete `runIterations` call unchanged. -/
theorem evidenced_beliefs_invariant_witness :
    (dEvidState.evidence 0).isSome ∧
    (runIterations 5 (1 / 1000000) dEvidState).currentBelief 0 =
      dEvidState.currentBelief 0 ∧
    (gEvidState.evidence 0).isSome ∧
    runIterationsG 0 1 gEvidState =
      some { gEvidState with log := ["Did not converge after 0 iterations"] } ∧
    ({ gEvidState with
        log := ["Did not converge after 0 iterations"] } : GState).currentMean 0 =
      gEvidState.currentMean 0 := by
  have hd : (dEvidState.evidence 0).isSome := rfl
  have hg : (gEvidState.evidence 0).isSome := rfl
  have hrun : runIterationsG 0 1 gEvidState =
      some { gEvidState with log := ["Did not converge after 0 iterations"] } := rfl
  exact ⟨hd, (evidenced_beliefs_invariant.1 dEvidState 0 5 (1 / 1000000) hd).1, hg, hrun,
    (evidenced_beliefs_invariant.2 gEvidState 0 0 1 _ hg hrun).1⟩

/-! ## Claim C3: how `runIterations` reports its outcome -/

/-- `updateBeliefsG` never touches nodes, adjacency, evidence, messages,
damping or the log. -/
theorem updateBeliefsG_static (s : GState) :
    (updateBeliefsG s).nodes = s.nodes ∧
    (updateBeliefsG s).neighbors = s.neighbors ∧
    (updateBeliefsG s).evidence = s.evidence ∧
    (updateBeliefsG s).msgMean = s.msgMean ∧
    (updateBeliefsG s).msgPrecision = s.msgPrecision ∧
    (updateBeliefsG s).dampingFactor = s.dampingFactor ∧
    (updateBeliefsG s).log = s.log := by
  unfold updateBeliefsG
  exact foldl_preserve
    (fun t : GState => t.nodes = s.nodes ∧ t.neighbors = s.neighbors ∧
      t.evidence = s.evidence ∧ t.msgMean = s.msgMean ∧
      t.msgPrecision = s.msgPrecision ∧
      t.dampingFactor = s.dampingFactor ∧ t.log = s.log) _ _ _
    ⟨rfl, rfl, rfl, rfl, rfl, rfl, rfl⟩ (by
      intro t id ht
      obtain ⟨h1, h2, h3, h4, h5, h6, h7⟩ := ht
      obtain ⟨g1, g2, g3, g4, g5, _, _, g8, g9⟩ := updateBeliefStepG_static t id
      exact ⟨g1.trans h1, g2.trans h2, g3.trans h3, g4.trans h4, g5.trans h5,
        g8.trans h6, g9.trans h7⟩)

/-- One discrete iteration leaves the log unchanged (only the loop itself
logs). -/
theorem diteration_log (s : DState) :
    (updateBeliefs (updateAllMessages s)).log = s.log := by
  rw [(updateBeliefs_static (updateAllMessages s)).2.2.2.2.2.2]
  exact (updateAllMessages_core s).2.2.2.2.2.2.2

/-- The discrete loop appends exactly one outcome line to the log: a
converged-at-iteration-k line with `1 ≤ k ≤ maxIterations`, or the
budget-exhausted line. -/
theorem runIterationsAux_log (m : ℕ) (tol : ℝ) :
    ∀ (fuel : ℕ) (s : DState), fuel ≤ m →
      ∃ msg, (runIterationsAux m tol fuel s).log = s.log ++ [msg] ∧
        ((∃ k, 1 ≤ k ∧ k ≤ m ∧ msg = s!"Converged after {k} iterations") ∨
          msg = s!"Did not converge after {m} iterations") := by
  intro fuel
  induction fuel with
  | zero =>
    intro s _
    exact ⟨_, rfl, Or.inr rfl⟩
  | succ rem ih =>
    intro s hle
    simp only [runIterationsAux]
    by_cases hc : dmaxDiff (updateBeliefs (updateAllMessages s))
        ((variableIds s).map fun id => s.currentBelief id) < tol
    · rw [if_pos hc]
      refine ⟨s!"Converged after {m - rem} iterations", ?_, Or.inl ⟨m - rem, ?_, ?_, rfl⟩⟩
      · rw [diteration_log]
      · omega
      · omega
    · rw [if_neg hc]
      obtain ⟨msg, hlog, hcase⟩ :=
        ih (updateBeliefs (updateAllMessages s)) (Nat.le_of_succ_le hle)
      exact ⟨msg, by rw [hlog, diteration_log], hcase⟩

/-- One Gaussian iteration leaves the log unchanged whenever the sweep
returns. -/
theorem giteration_log (s : GState) (u : GState) (hu : updateAllMessagesG s = some u) :
    (updateBeliefsG u).log = s.log := by
  rw [(updateBeliefsG_static u).2.2.2.2.2.2]
  exact (updateAllMessagesG_core s u hu).2.2.2.2.2.2

/-- The Gaussian loop appends exactly one outcome line to the log whenever
it returns at all. -/
theorem runIterationsAuxG_log (m : ℕ) (tol : ℝ) :
    ∀ (fuel : ℕ) (s : GState), fuel ≤ m → ∀ t, runIterationsAuxG m tol fuel s = some t →
      ∃ msg, t.log = s.log ++ [msg] ∧
        ((∃ k, 1 ≤ k ∧ k ≤ m ∧ msg = s!"Converged after {k} iterations") ∨
          msg = s!"Did not converge after {m} iterations") := by
  intro fuel
  induction fuel with
  | zero =>
    intro s _ t ht
    cases ht
    exact ⟨_, rfl, Or.inr rfl⟩
  | succ rem ih =>
    intro s hle t ht
    simp only [runIterationsAuxG] at ht
    cases hu : updateAllMessagesG s with
    | none => rw [hu] at ht; cases ht
    | some u =>
      rw [hu, Option.some_bind] at ht
      by_cases hc : gmaxDiff (updateBeliefsG u) ((gvariableIds s).map s.currentMean)
          ((gvariableIds s).map s.currentVariance) < tol
      · rw [if_pos hc] at ht
        cases ht
        refine ⟨s!"Converged after {m - rem} iterations", ?_,
          Or.inl ⟨m - rem, by omega, by omega, rfl⟩⟩
        rw [giteration_log s u hu]
      · rw [if_neg hc] at ht
        obtain ⟨msg, hlog, hcase⟩ := ih (updateBeliefsG u) (Nat.le_of_succ_le hle) t ht
        exact ⟨msg, by rw [hlog, giteration_log s u hu], hcase⟩

/-- C3 (amended).  `runIterations` returns no value to the caller in either
engine (`undefined`, modelled `()`); its outcome is reported only through a
single `console.log` line appended to the log — either
"Converged after k iterations" with `1 ≤ k ≤ maxIterations`, or
"Did not converge after maxIterations iterations" (these are the only
observables; for the Gaussian engine this holds whenever the call returns
rather than throws). -/
theorem runIterations_reports_only_via_log :
    (∀ (maxIterations : ℕ) (tolerance : ℝ) (s : DState),
      runIterationsReturnValue maxIterations tolerance s = () ∧
      ∃ msg, (runIterations maxIterations tolerance s).log = s.log ++ [msg] ∧
        ((∃ k, 1 ≤ k ∧ k ≤ maxIterations ∧ msg = s!"Converged after {k} iterations") ∨
          msg = s!"Did not converge after {maxIterations} iterations")) ∧
    (∀ (maxIterations : ℕ) (tolerance : ℝ) (gs : GState) (t : GState),
      runIterationsG maxIterations tolerance gs = some t →
      runIterationsReturnValueG maxIterations tolerance gs = () ∧
      ∃ msg, t.log = gs.log ++ [msg] ∧
        ((∃ k, 1 ≤ k ∧ k ≤ maxIterations ∧ msg = s!"Converged after {k} iterations") ∨
          msg = s!"Did not converge after {maxIterations} iterations")) := by
  constructor
  · intro m tol s
    exact ⟨rfl, runIterationsAux_log m tol m s (Nat.le_refl m)⟩
  · intro m tol gs t ht
    exact ⟨rfl, runIterationsAuxG_log m tol m gs (Nat.le_refl m) t ht⟩

/-- Witness for the amended C3 at a concrete Gaussian zero-iteration call
(and a concrete discrete call). -/
theorem runIterations_reports_only_via_log_witness :
    (runIterationsReturnValue 2 1 dfactorState = () ∧
      ∃ msg, (runIterations 2 1 dfactorState).log = dfactorState.log ++ [msg] ∧
        ((∃ k, 1 ≤ k ∧ k ≤ 2 ∧ msg = s!"Converged after {k} iterations") ∨
          msg = s!"Did not converge after {2} iterations")) ∧
    (runIterationsReturnValueG 0 1 gfactorState = () ∧
      ∃ msg,
        ({ gfactorState with
            log := ["Did not converge after 0 iterations"] } : GState).log =
          gfactorState.log ++ [msg] ∧
        ((∃ k, 1 ≤ k ∧ k ≤ 0 ∧ msg = s!"Converged after {k} iterations") ∨
          msg = s!"Did not converge after {0} iterations")) :=
  ⟨runIterations_reports_only_via_log.1 2 1 dfactorState,
   runIterations_reports_only_via_log.2 0 1 gfactorState
     { gfactorState with log := ["Did not converge after 0 iterations"] } rfl⟩

/-- Counterexample for C3 as stated: two calls on the same engine state with
different outcomes — the first converges after one iteration, the second
exhausts its budget, as their logs show — hand the caller the very same
return value `()`; no status value distinct from the console log is
returned. -/
theorem runIterations_status_counterexample :
    (runIterations 1 (1 / 1000000) dfactorState).log =
      ["Converged after 1 iterations"] ∧
    (runIterations 1 0 dfactorState).log =
      ["Did not converge after 1 iterations"] ∧
    runIterationsReturnValue 1 (1 / 1000000) dfactorState =
      runIterationsReturnValue 1 0 dfactorState := by
  have h0 : dmaxDiff (updateBeliefs (updateAllMessages dfactorState))
      ((variableIds dfactorState).map (fun id => dfactorState.currentBelief id)) = 0 :=
    rfl
  refine ⟨?_, ?_, rfl⟩
  · show (runIterationsAux 1 (1 / 1000000) 1 dfactorState).log = _
    simp only [runIterationsAux]
    rw [h0, if_pos (by norm_num : (0 : ℝ) < 1 / 1000000)]
    rfl
  · show (runIterationsAux 1 0 1 dfactorState).log = _
    simp only [runIterationsAux]
    rw [h0, if_neg (by norm_num : ¬ ((0 : ℝ) < 0))]
    rfl

/-! ## Claim C4: the damping conventions of the two engines -/

/-- Spec-side element-wise blend written from the claim:
`damping * new + (1 - damping) * old`. -/
def blendSpec (dampingFactor : ℝ) (newMsg prevMsg : List ℝ) : List ℝ :=
  List.zipWith (fun a b => dampingFactor * a + (1 - dampingFactor) * b) newMsg prevMsg

/-- `mapIdx` with positional `getD` lookups is `zipWith` on equal-length
lists. -/
theorem mapIdx_getD_zipWith (f : ℝ → ℝ → ℝ) :
    ∀ (a b : List ℝ), a.length = b.length →
      (a.mapIdx fun idx val => f val (b.getD idx 0)) = a.zipWith f b := by
  intro a
  induction a with
  | nil => intro b _; simp
  | cons x xs ih =>
    intro b h
    cases b with
    | nil => simp at h
    | cons y ys =>
      simp only [List.mapIdx_cons, List.zipWith_cons_cons, List.getD_cons_zero,
        List.getD_cons_succ]
      exact congrArg _ (ih ys (by simpa using h))

theorem blendSpec_one : ∀ (a b : List ℝ), a.length = b.length → blendSpec 1 a b = a := by
  intro a
  induction a with
  | nil => intro b _; simp [blendSpec]
  | cons x xs ih =>
    intro b h
    cases b with
    | nil => simp at h
    | cons y ys =>
      have hih := ih ys (by simpa using h)
      simp only [blendSpec, List.zipWith_cons_cons, one_mul, sub_self, zero_mul,
        add_zero] at hih ⊢
      exact congrArg _ hih

theorem blendSpec_zero : ∀ (a b : List ℝ), a.length = b.length → blendSpec 0 a b = b := by
  intro a
  induction a with
  | nil =>
    intro b h
    simp [blendSpec, (by simpa using h.symm : b = [])]
  | cons x xs ih =>
    intro b h
    cases b with
    | nil => simp at h
    | cons y ys =>
      have hih := ih ys (by simpa using h)
      simp only [blendSpec, List.zipWith_cons_cons, zero_mul, sub_zero, one_mul,
        zero_add] at hih ⊢
      exact congrArg _ hih

/-- `dampMessage` is exactly: blend element-wise, then renormalize. -/
theorem dampMessage_eq_normalize_blend (newMsg prevMsg : List ℝ) (d : ℝ)
    (h : newMsg.length = prevMsg.length) :
    dampMessage newMsg prevMsg d = normalize (blendSpec d newMsg prevMsg) := by
  simp only [dampMessage, normalize]
  rw [show (List.mapIdx (fun idx val => d * val + (1 - d) * prevMsg.getD idx 0) newMsg)
      = List.zipWith (fun a b => d * a + (1 - d) * b) newMsg prevMsg from
    mapIdx_getD_zipWith (fun a b => d * a + (1 - d) * b) newMsg prevMsg h]
  rfl

/-- C4 (amended).  The discrete `dampMessage` blends
`damping * new + (1 - damping) * old` element-wise and renormalizes, so
damping 1 takes the new value and damping 0 keeps the previous one — the
constructor default damping 0 therefore freezes discrete beliefs at the
previous value rather than accepting the new one; the Gaussian engine
inlines the *reversed* blend `damping * old + (1 - damping) * new` on every
mean/precision entry, without renormalization, so there damping 0 accepts
the new value and damping 1 keeps the old one. -/
theorem damping_conventions :
    (∀ (newMsg prevMsg : List ℝ) (d : ℝ), newMsg.length = prevMsg.length →
      dampMessage newMsg prevMsg d = normalize (blendSpec d newMsg prevMsg)) ∧
    (∀ (newMsg prevMsg : List ℝ), newMsg.length = prevMsg.length →
      dampMessage newMsg prevMsg 1 = normalize newMsg ∧
      dampMessage newMsg prevMsg 0 = normalize prevMsg) ∧
    (∀ (t : GState) (i j : ℕ), i < t.nodes.length → j < t.nodes.length →
      (gaussianApplyDamping t).msgMean i j =
        t.dampingFactor * t.msgMean i j + (1 - t.dampingFactor) * t.nextMean i j ∧
      (gaussianApplyDamping t).msgPrecision i j =
        t.dampingFactor * t.msgPrecision i j +
          (1 - t.dampingFactor) * t.nextPrecision i j) ∧
    (∀ (t : GState) (i j : ℕ), i < t.nodes.length → j < t.nodes.length →
      t.dampingFactor = 0 → (gaussianApplyDamping t).msgMean i j = t.nextMean i j) ∧
    (∀ (t : GState) (i j : ℕ), i < t.nodes.length → j < t.nodes.length →
      t.dampingFactor = 1 → (gaussianApplyDamping t).msgMean i j = t.msgMean i j) := by
  have hblend := dampMessage_eq_normalize_blend
  have hgd : ∀ (t : GState) (i j : ℕ), i < t.nodes.length → j < t.nodes.length →
      (gaussianApplyDamping t).msgMean i j =
        t.dampingFactor * t.msgMean i j + (1 - t.dampingFactor) * t.nextMean i j ∧
      (gaussianApplyDamping t).msgPrecision i j =
        t.dampingFactor * t.msgPrecision i j +
          (1 - t.dampingFactor) * t.nextPrecision i j := by
    intro t i j hi hj
    constructor <;> simp [gaussianApplyDamping, hi, hj]
  refine ⟨hblend, ?_, hgd, ?_, ?_⟩
  · intro newMsg prevMsg h
    constructor
    · rw [hblend newMsg prevMsg 1 h, blendSpec_one newMsg prevMsg h]
    · rw [hblend newMsg prevMsg 0 h, blendSpec_zero newMsg prevMsg h]
  · intro t i j hi hj hd
    rw [(hgd t i j hi hj).1, hd]
    ring
  · intro t i j hi hj hd
    rw [(hgd t i j hi hj).1, hd]
    ring

/-- A concrete Gaussian state for the damping counterexample: an evidenced
variable A (evidence mean 7) connected to a well-formed unary factor F
(`potentialPrecision = [[1]]`, `potentialMean = [0]`), damping factor 1,
with the old message mean 5 in the current buffer. -/
def gDampState : GState where
  nodes := [{ name := "A", type := .VARIABLE, mean := 7, variance := 1 },
    { name := "F", type := .FACTOR, potentialMean := [0],
      potentialPrecision := [[1]] }]
  neighbors := fun i => if i = 0 then [1] else if i = 1 then [0] else []
  msgMean := fun _ _ => 5
  msgPrecision := fun _ _ => 1
  nextMean := fun _ _ => 0
  nextPrecision := fun _ _ => 0
  currentMean := fun _ => 7
  currentVariance := fun _ => 1
  dampingFactor := 1
  evidence := fun i => if i = 0 then some (7, 1) else none
  log := []

/-- Counterexample for C4 as stated: in the Gaussian engine with damping
factor 1, variable A's sweep computes the new outgoing message mean 7 (its
evidence mean), yet the damped current message comes out as the *old* value
5 — whereas the claimed convention `damping*new + (1-damping)*old` with
damping 1 always takes the new value, `1*7 + (1-1)*5 = 7 ≠ 5`. -/
theorem damping_convention_counterexample :
    gDampState.dampingFactor = 1 ∧ gDampState.msgMean 0 1 = 5 ∧
    (updateAllMessagesG gDampState).map (fun t => t.msgMean 0 1) = some 5 ∧
    ((1 : ℝ) * 7 + (1 - 1) * 5 = 7) ∧ (5 : ℝ) ≠ 7 := by
  refine ⟨rfl, rfl, ?_, by norm_num, by norm_num⟩
  have h : (updateAllMessagesG gDampState).map (fun t => t.msgMean 0 1) =
      some ((1 : ℝ) * 5 + (1 - 1) * 7) := rfl
  rw [h]
  norm_num

/-- Witness for the amended C4 at concrete inputs: the blend form of
`dampMessage` on `[2]`, `[4]`, its endpoint behavior, and the Gaussian
reversed blend on the damping-1 state. -/
theorem damping_conventions_witness :
    dampMessage [2] [4] (1 / 2) = normalize (blendSpec (1 / 2) [2] [4]) ∧
    dampMessage [2] [4] 1 = normalize [2] ∧
    dampMessage [2] [4] 0 = normalize [4] ∧
    (gaussianApplyDamping gDampState).msgMean 0 1 =
      gDampState.dampingFactor * gDampState.msgMean 0 1 +
        (1 - gDampState.dampingFactor) * gDampState.nextMean 0 1 ∧
    (gaussianApplyDamping gDampState).msgMean 0 1 = gDampState.msgMean 0 1 := by
  have hlen : ([2] : List ℝ).length = ([4] : List ℝ).length := rfl
  have hi : (0 : ℕ) < gDampState.nodes.length := by norm_num [gDampState]
  have hj : (1 : ℕ) < gDampState.nodes.length := by norm_num [gDampState]
  have hone : gDampState.dampingFactor = 1 := rfl
  exact ⟨damping_conventions.1 [2] [4] (1 / 2) hlen,
    (damping_conventions.2.1 [2] [4] hlen).1,
    (damping_conventions.2.1 [2] [4] hlen).2,
    (damping_conventions.2.2.1 gDampState 0 1 hi hj).1,
    damping_conventions.2.2.2.2 gDampState 0 1 hi hj hone⟩

/-! ## Claim C5: the Gaussian factor→variable message formula -/

/-- A running-sum loop over indices computes the seed plus the mapped
sum. -/
theorem foldl_add_apply (f : ℕ → ℝ) :
    ∀ (l : List ℕ) (x : ℝ), l.foldl (fun acc j => acc + f j) x = x + (l.map f).sum := by
  intro l
  induction l with
  | nil => simp
  | cons a l ih => intro x; simp [ih, List.sum_cons]; ring

/-- Summing a mapped `List.range` is summing over `Finset.range`. -/
theorem sum_map_range (f : ℕ → ℝ) :
    ∀ n, ((List.range n).map f).sum = ∑ j in Finset.range n, f j := by
  intro n
  induction n with
  | zero => simp
  | succ n ih => rw [List.range_succ, Finset.sum_range_succ]; simp [ih]

/-- Filtering before mapping is mapping an if-else. -/
theorem filter_map_sum (f : ℕ → ℝ) (p : ℕ → Bool) :
    ∀ l : List ℕ,
      ((l.filter p).map f).sum = (l.map (fun j => if p j then f j else 0)).sum := by
  intro l
  induction l with
  | nil => simp
  | cons a l ih => by_cases h : p a <;> simp [List.filter_cons, h, ih]

/-- The source's skip-one-index loop is the `Finset.erase` sum of the
claim. -/
theorem filter_ne_foldl_eq_erase_sum (f : ℕ → ℝ) (n i : ℕ) :
    ((List.range n).filter (· ≠ i)).foldl (fun acc j => acc + f j) 0 =
      ∑ j in (Finset.range n).erase i, f j := by
  rw [foldl_add_apply, zero_add, filter_map_sum, sum_map_range, ← Finset.filter_ne',
    Finset.sum_filter]
  exact Finset.sum_congr rfl (fun j _ => by by_cases h : j = i <;> simp [h])

/-- The mathjs row-dot-product is the indexed sum of the claim. -/
theorem zipWith_mul_sum :
    ∀ (a b : List ℝ), a.length = b.length →
      (a.zipWith (· * ·) b).sum = ∑ j in Finset.range b.length, a.getD j 0 * b.getD j 0 := by
  intro a
  induction a with
  | nil =>
    intro b h
    rw [(by simpa using h.symm : b = [])]
    simp
  | cons x xs ih =>
    intro b h
    cases b with
    | nil => simp at h
    | cons y ys =>
      rw [List.zipWith_cons_cons, List.sum_cons, ih ys (by simpa using h)]
      rw [List.length_cons, Finset.sum_range_succ']
      simp [add_comm]

/-- Spec-side η[i] = (Λ · potentialMean)[i], written from the claim as an
indexed sum. -/
def etaSpec (Lambda : List (List ℝ)) (mean : List ℝ) (i : ℕ) : ℝ :=
  ∑ j in Finset.range mean.length, matGet Lambda i j * mean.getD j 0

/-- Spec-side factor→variable message mean, written from the claim:
`(η[i] − Σ_{j≠i} Λ[i,j]·incoming_mean[j]) / Λ[i,i]` when `Λ[i,i] > 0`, else
0, with `incoming_mean[j]` the current-generation variable→factor message
mean of the factor's j-th neighbor. -/
def gaussianF2VMeanSpec (s : GState) (fid i : ℕ) : ℝ :=
  if 0 < matGet (s.potentialPrecision fid) i i then
    (etaSpec (s.potentialPrecision fid) (s.potentialMean fid) i -
      ∑ j in (Finset.range (s.neighbors fid).length).erase i,
        matGet (s.potentialPrecision fid) i j *
          s.msgMean ((s.neighbors fid).getD j 0) fid) /
      matGet (s.potentialPrecision fid) i i
  else 0

/-- C5.  For every factor `fid` and target variable `vid` at neighbor-index
`i` (the first position of `vid` in the factor's neighbor list, as computed
by the source's `findIndex`), the factor→variable message written into the
next-generation buffer has precision `Λ[i,i]` and mean
`(η[i] − Σ_{j≠i} Λ[i,j]·incoming_mean[j]) / Λ[i,i]` when `Λ[i,i] > 0` and
mean 0 otherwise, with η = Λ·potentialMean and the incoming means read from
the current-generation variable→factor messages.  (`hrow` says row `i` of Λ
has the length of the potential mean vector, as for any well-formed
factor.) -/
theorem gaussian_factor_to_variable_message (s : GState) (fid vid i : ℕ)
    (hidx : (s.neighbors fid).indexOf vid = i)
    (hrow : ((s.potentialPrecision fid).getD i []).length =
      (s.potentialMean fid).length) :
    (updateFactorToVariableMessageG s fid vid).nextPrecision fid vid =
      matGet (s.potentialPrecision fid) i i ∧
    (updateFactorToVariableMessageG s fid vid).nextMean fid vid =
      gaussianF2VMeanSpec s fid i := by
  unfold updateFactorToVariableMessageG
  simp only [hidx]
  constructor
  · simp
  · simp only [and_self, if_true]
    rw [filter_ne_foldl_eq_erase_sum
      (fun j => matGet (s.potentialPrecision fid) i j *
        s.msgMean ((s.neighbors fid).getD j 0) fid) (s.neighbors fid).length i]
    unfold gaussianF2VMeanSpec matVecGet etaSpec
    rw [zipWith_mul_sum _ _ hrow]
    by_cases hp : 0 < matGet (s.potentialPrecision fid) i i <;>
      simp [hp, matGet]

/-- A concrete Gaussian state for the C5 witness: two variables joined by a
difference factor with precision matrix [[1,-1],[-1,1]] and potential mean
[0,0], as in the repository's demo graph. -/
def gPairState : GState where
  nodes := [{ name := "A", type := .VARIABLE, mean := 2, variance := 1 },
    { name := "B", type := .VARIABLE, mean := 0, variance := 1 },
    { name := "F", type := .FACTOR, potentialMean := [0, 0],
      potentialPrecision := [[1, -1], [-1, 1]] }]
  neighbors := fun i =>
    if i = 0 then [2] else if i = 1 then [2] else if i = 2 then [0, 1] else []
  msgMean := fun a _ => if a = 0 then 2 else 0
  msgPrecision := fun _ _ => 1
  nextMean := fun _ _ => 0
  nextPrecision := fun _ _ => 0
  currentMean := fun i => if i = 0 then 2 else 0
  currentVariance := fun _ => 1
  dampingFactor := 0
  evidence := fun _ => none
  log := []

/-- Witness for C5 on the concrete pair graph, at factor F (id 2) and target
variable A (neighbor-index 0). -/
theorem gaussian_factor_to_variable_message_witness :
    (gPairState.neighbors 2).indexOf 0 = 0 ∧
    ((gPairState.potentialPrecision 2).getD 0 []).length =
      (gPairState.potentialMean 2).length ∧
    (updateFactorToVariableMessageG gPairState 2 0).nextPrecision 2 0 =
      matGet (gPairState.potentialPrecision 2) 0 0 ∧
    (updateFactorToVariableMessageG gPairState 2 0).nextMean 2 0 =
      gaussianF2VMeanSpec gPairState 2 0 := by
  have h1 : (gPairState.neighbors 2).indexOf 0 = 0 := rfl
  have h2 : ((gPairState.potentialPrecision 2).getD 0 []).length =
      (gPairState.potentialMean 2).length := rfl
  obtain ⟨c1, c2⟩ := gaussian_factor_to_variable_message gPairState 2 0 0 h1 h2
  exact ⟨h1, h2, c1, c2⟩

/-! ## Claim C6: the Gaussian sweep and single-factor variables -/

/-- A non-evidenced variable whose other-neighbor list is empty makes
`updateVariableToFactorMessage` reduce an empty array with no initial
value: a throw. -/
theorem gv2f_throws (s : GState) (vid fid : ℕ) (hev : s.evidence vid = none)
    (hall : (s.neighbors vid).filter (· ≠ fid) = []) :
    updateVariableToFactorMessageG s vid fid = none := by
  unfold updateVariableToFactorMessageG
  rw [hev, hall]
  rfl

/-- A non-evidenced variable with another distinct neighboring factor never
throws. -/
theorem gv2f_returns (s : GState) (vid fid : ℕ) (hev : s.evidence vid = none)
    (hother : ∃ g ∈ s.neighbors vid, g ≠ fid) :
    (updateVariableToFactorMessageG s vid fid).isSome := by
  obtain ⟨g, hg, hgne⟩ := hother
  have hf : g ∈ (s.neighbors vid).filter (· ≠ fid) :=
    List.mem_filter.2 ⟨hg, by simpa using hgne⟩
  unfold updateVariableToFactorMessageG
  rw [hev]
  obtain ⟨x, xs, hxs⟩ : ∃ x xs, (s.neighbors vid).filter (· ≠ fid) = x :: xs := by
    cases hc : (s.neighbors vid).filter (· ≠ fid) with
    | nil => rw [hc] at hf; simp at hf
    | cons x xs => exact ⟨x, xs, rfl⟩
  rw [hxs]
  rfl

/-- Folding the option-threaded neighbor loop from a throw stays thrown. -/
theorem foldl_bind_none (g : GState → ℕ → Option GState) :
    ∀ l : List ℕ, l.foldl (fun u a => u.bind (fun v => g v a)) none = none := by
  intro l
  induction l with
  | nil => rfl
  | cons a l ih => simpa using ih

/-- Folding the outer sweep loop from a throw stays thrown. -/
theorem foldl_sweepstep_none : ∀ l : List ℕ, l.foldl gsweepVariableStep none = none := by
  intro l
  induction l with
  | nil => rfl
  | cons a l ih =>
    rw [List.foldl_cons, show gsweepVariableStep none a = none from rfl]
    exact ih

/-- If some id in the remaining worklist is a non-evidenced variable whose
neighbor list is nonempty and consists only of the target factor `fid`, the
variable phase throws. -/
theorem gsweep_foldl_throws (s : GState) (vid fid : ℕ) (nd : GNode)
    (hnd : s.nodes.get? vid = some nd) (hv : nd.type = .VARIABLE)
    (hev : s.evidence vid = none) (hne : s.neighbors vid ≠ [])
    (hall : ∀ x ∈ s.neighbors vid, x = fid) :
    ∀ (l : List ℕ) (acc : Option GState), vid ∈ l →
      (acc = none ∨ ∃ t, acc = some t ∧ GSameCore s t) →
      l.foldl gsweepVariableStep acc = none := by
  have hfl : (s.neighbors vid).filter (· ≠ fid) = [] := by
    rw [List.filter_eq_nil_iff]
    intro a ha
    simpa using hall a ha
  have hstep : ∀ t : GState, GSameCore s t → gsweepVariableStep (some t) vid = none := by
    intro t hcore
    obtain ⟨hnodes, hnbrs, _, _, hevid, _, _⟩ := hcore
    unfold gsweepVariableStep
    rw [Option.some_bind]
    have hnd' : t.nodes.get? vid = some nd := by rw [hnodes]; exact hnd
    simp only [hnd']
    rw [if_pos hv]
    obtain ⟨x, xs, hxs⟩ : ∃ x xs, t.neighbors vid = x :: xs := by
      cases hc : t.neighbors vid with
      | nil => rw [hnbrs] at hc; exact absurd hc hne
      | cons x xs => exact ⟨x, xs, rfl⟩
    have hx : x = fid := by
      apply hall
      rw [← hnbrs, hxs]
      exact List.mem_cons_self x xs
    rw [hxs, List.foldl_cons, Option.some_bind, hx]
    rw [gv2f_throws t vid fid (by rw [hevid]; exact hev) (by rw [hnbrs]; exact hfl)]
    exact foldl_bind_none _ xs
  intro l
  induction l with
  | nil => intro acc h; simp at h
  | cons a l ih =>
    intro acc hmem hacc
    rcases hacc with rfl | ⟨t, rfl, hcore⟩
    · rw [List.foldl_cons, show gsweepVariableStep none a = none from rfl]
      exact foldl_sweepstep_none l
    · rw [List.foldl_cons]
      by_cases ha : a = vid
      · subst ha
        rw [hstep t hcore]
        exact foldl_sweepstep_none l
      · have hmem' : vid ∈ l := by
          rcases List.mem_cons.1 hmem with h | h
          · exact absurd h.symm ha
          · exact h
        cases hu : gsweepVariableStep (some t) a with
        | none => exact foldl_sweepstep_none l
        | some u =>
          exact ih (some u) hmem' (Or.inr ⟨u, rfl,
            GSameCore.comp2 hcore (gsweepVariableStep_core t a u hu)⟩)

/-- Every variable that has any neighboring factor is evidenced or has a
second distinct neighboring factor: the condition under which the sweep's
initial-value-less `reduce`s never see an empty array. -/
def gaussianSweepSafe (s : GState) : Prop :=
  ∀ id nd, s.nodes.get? id = some nd → nd.type = .VARIABLE →
    s.evidence id = none → ∀ f ∈ s.neighbors id, ∃ g ∈ s.neighbors id, g ≠ f

/-- Under `gaussianSweepSafe`, the variable phase returns. -/
theorem gsweepVariablePhase_total (s : GState) (hsafe : gaussianSweepSafe s) :
    (gsweepVariablePhase s).isSome := by
  unfold gsweepVariablePhase
  have key : ∀ (l : List ℕ) (acc : Option GState),
      (∃ t, acc = some t ∧ GSameCore s t) →
      ∃ t, l.foldl gsweepVariableStep acc = some t ∧ GSameCore s t := by
    intro l
    induction l with
    | nil => intro acc h; exact h
    | cons a l ih =>
      intro acc hacc
      obtain ⟨t, rfl, hcore⟩ := hacc
      rw [List.foldl_cons]
      have hstep : ∃ u, gsweepVariableStep (some t) a = some u ∧ GSameCore s u := by
        have hnodes := hcore.1
        have hnbrs := hcore.2.1
        have hevid := hcore.2.2.2.2.1
        unfold gsweepVariableStep
        rw [Option.some_bind]
        obtain hnone | ⟨nd, hnd⟩ : t.nodes.get? a = none ∨ ∃ nd, t.nodes.get? a = some nd := by
          cases t.nodes.get? a
          · exact Or.inl rfl
          · exact Or.inr ⟨_, rfl⟩
        · simp only [hnone]
          exact ⟨t, rfl, hcore⟩
        · simp only [hnd]
          by_cases hv : nd.type = GraphType.VARIABLE
          · rw [if_pos hv]
            have inner : ∀ (nl : List ℕ), (∀ f ∈ nl, f ∈ t.neighbors a) →
                ∀ (acc2 : Option GState), (∃ u, acc2 = some u ∧ GSameCore s u) →
                ∃ u, nl.foldl
                  (fun x fid => x.bind (fun v => updateVariableToFactorMessageG v a fid))
                  acc2 = some u ∧ GSameCore s u := by
              intro nl
              induction nl with
              | nil => intro _ acc2 h2; exact h2
              | cons f fl ih2 =>
                intro hsub acc2 h2
                obtain ⟨u, rfl, hucore⟩ := h2
                rw [List.foldl_cons, Option.some_bind]
                have hf : f ∈ t.neighbors a := hsub f (List.mem_cons_self f fl)
                have hres : ∃ w, updateVariableToFactorMessageG u a f = some w ∧
                    GSameCore s w := by
                  cases hevu : u.evidence a with
                  | some ev =>
                    cases hw : updateVariableToFactorMessageG u a f with
                    | none =>
                      unfold updateVariableToFactorMessageG at hw
                      rw [hevu] at hw
                      cases hw
                    | some w =>
                      exact ⟨w, rfl, GSameCore.comp2 hucore (gv2f_core u a f w hw)⟩
                  | none =>
                    have hsa : (updateVariableToFactorMessageG u a f).isSome := by
                      apply gv2f_returns u a f hevu
                      have hevs : s.evidence a = none := by
                        have := hucore.2.2.2.2.1
                        rw [this] at hevu
                        exact hevu
                      obtain ⟨g, hg, hgne⟩ := hsafe a nd
                        (by rw [← hnodes]; exact hnd) hv hevs f
                        (by rw [hnbrs] at hf; exact hf)
                      refine ⟨g, ?_, hgne⟩
                      rw [hucore.2.1]
                      exact hg
                    cases hw : updateVariableToFactorMessageG u a f with
                    | none => rw [hw] at hsa; simp at hsa
                    | some w =>
                      exact ⟨w, rfl, GSameCore.comp2 hucore (gv2f_core u a f w hw)⟩
                obtain ⟨w, hw, hwcore⟩ := hres
                rw [hw]
                exact ih2 (fun x hx => hsub x (List.mem_cons_of_mem f hx)) (some w)
                  ⟨w, rfl, hwcore⟩
            exact inner (t.neighbors a) (fun f hf => hf) (some t) ⟨t, rfl, hcore⟩
          · rw [if_neg hv]
            exact ⟨t, rfl, hcore⟩
      obtain ⟨u, hu, hucore⟩ := hstep
      rw [hu]
      exact ih (some u) ⟨u, rfl, hucore⟩
  obtain ⟨t, ht, _⟩ := key (List.range s.nodes.length) (some s)
    ⟨s, rfl, GSameCore.rfl_self2 s⟩
  rw [ht]
  rfl

/-- C6 (amended).  A non-evidenced Gaussian variable whose neighbor list is
nonempty and consists only of the message's target factor makes
`updateVariableToFactorMessage` reduce an empty list with no initial
element, so the sweep — and `runIterations` with `maxIterations ≥ 1` —
throws instead of completing; conversely the sweep (and every
`runIterations` call) is total whenever every variable with at least one
neighboring factor either is evidenced or has a second distinct neighboring
factor (variables with no neighboring factor are never updated and are
trivially safe). -/
theorem gaussian_sweep_totality :
    (∀ (s : GState) (vid fid : ℕ) (nd : GNode), s.nodes.get? vid = some nd →
      nd.type = .VARIABLE → s.evidence vid = none → s.neighbors vid ≠ [] →
      (∀ x ∈ s.neighbors vid, x = fid) →
      updateAllMessagesG s = none ∧
      ∀ (n : ℕ) (tol : ℝ), 1 ≤ n → runIterationsG n tol s = none) ∧
    (∀ s : GState, gaussianSweepSafe s →
      (updateAllMessagesG s).isSome ∧
      ∀ (n : ℕ) (tol : ℝ), (runIterationsG n tol s).isSome) := by
  constructor
  · intro s vid fid nd hnd hv hev hne hall
    have hvp : gsweepVariablePhase s = none := by
      unfold gsweepVariablePhase
      exact gsweep_foldl_throws s vid fid nd hnd hv hev hne hall
        (List.range s.nodes.length)
        (some s)
        (List.mem_range.2 (List.get?_eq_some.1 hnd).1)
        (Or.inr ⟨s, rfl, GSameCore.rfl_self2 s⟩)
    have htam : updateAllMessagesG s = none := by
      unfold updateAllMessagesG
      rw [hvp]
      rfl
    refine ⟨htam, ?_⟩
    intro n tol hn
    obtain ⟨m, rfl⟩ : ∃ m, n = m + 1 := ⟨n - 1, by omega⟩
    show runIterationsAuxG (m + 1) tol (m + 1) s = none
    simp only [runIterationsAuxG]
    rw [htam]
    rfl
  · intro s hsafe
    have hsome : ∀ t : GState, gaussianSweepSafe t → (updateAllMessagesG t).isSome := by
      intro t hsafet
      have h1 := gsweepVariablePhase_total t hsafet
      unfold updateAllMessagesG
      cases hp : gsweepVariablePhase t with
      | none => rw [hp] at h1; simp at h1
      | some w => rfl
    refine ⟨hsome s hsafe, ?_⟩
    have hrun : ∀ (fuel m : ℕ) (tol : ℝ) (t : GState), gaussianSweepSafe t →
        (runIterationsAuxG m tol fuel t).isSome := by
      intro fuel
      induction fuel with
      | zero => intro m tol t _; rfl
      | succ rem ih =>
        intro m tol t hsafet
        simp only [runIterationsAuxG]
        cases hu : updateAllMessagesG t with
        | none =>
          have := hsome t hsafet
          rw [hu] at this
          simp at this
        | some u =>
          rw [Option.some_bind]
          have hcore := updateAllMessagesG_core t u hu
          have hstat := updateBeliefsG_static u
          have hsafeu : gaussianSweepSafe (updateBeliefsG u) := by
            intro id nd hnd hv hev f hf
            rw [hstat.1, hcore.1] at hnd
            rw [hstat.2.2.1, hcore.2.2.2.2.1] at hev
            rw [hstat.2.1, hcore.2.1] at hf
            obtain ⟨g, hg, hgne⟩ := hsafet id nd hnd hv hev f hf
            refine ⟨g, ?_, hgne⟩
            rw [hstat.2.1, hcore.2.1]
            exact hg
          by_cases hc : gmaxDiff (updateBeliefsG u) ((gvariableIds t).map t.currentMean)
              ((gvariableIds t).map t.currentVariance) < tol
          · rw [if_pos hc]; rfl
          · rw [if_neg hc]; exact ih m tol (updateBeliefsG u) hsafeu
    intro n tol
    exact hrun n n tol s hsafe

/-- A concrete Gaussian state with one isolated, non-evidenced variable. -/
def gIsoState : GState where
  nodes := [{ name := "A", type := .VARIABLE, mean := 2, variance := 1 }]
  neighbors := fun _ => []
  msgMean := fun _ _ => 0
  msgPrecision := fun _ _ => 0
  nextMean := fun _ _ => 0
  nextPrecision := fun _ _ => 0
  currentMean := fun _ => 2
  currentVariance := fun _ => 1
  dampingFactor := 0
  evidence := fun _ => none
  log := []

/-- Counterexample for C6's "total only when every variable either is
evidenced or has at least two neighboring factors": the isolated variable A
is neither evidenced nor has two neighboring factors (it has none), yet the
sweep returns and `runIterations 1` completes without throwing. -/
theorem gaussian_totality_counterexample :
    gIsoState.evidence 0 = none ∧ (gIsoState.neighbors 0).length < 2 ∧
    (updateAllMessagesG gIsoState).isSome = true ∧
    runIterationsG 1 1 gIsoState ≠ none := by
  refine ⟨rfl, by norm_num [gIsoState], rfl, ?_⟩
  show runIterationsAuxG 1 1 1 gIsoState ≠ none
  simp only [runIterationsAuxG]
  have hs : (updateAllMessagesG gIsoState).isSome = true := rfl
  cases hu : updateAllMessagesG gIsoState with
  | none => rw [hu] at hs; simp at hs
  | some u =>
    rw [Option.some_bind]
    by_cases hc : gmaxDiff (updateBeliefsG u) ((gvariableIds gIsoState).map
        gIsoState.currentMean) ((gvariableIds gIsoState).map
        gIsoState.currentVariance) < 1
    · rw [if_pos hc]; simp
    · rw [if_neg hc]; simp [runIterationsAuxG]

/-- A concrete Gaussian state whose only variable has exactly one
neighboring factor and no evidence: the throwing configuration. -/
def gThrowState : GState where
  nodes := [{ name := "A", type := .VARIABLE, mean := 2, variance := 1 },
    { name := "F", type := .FACTOR, potentialMean := [0],
      potentialPrecision := [[1]] }]
  neighbors := fun i => if i = 0 then [1] else if i = 1 then [0] else []
  msgMean := fun _ _ => 0
  msgPrecision := fun _ _ => 0
  nextMean := fun _ _ => 0
  nextPrecision := fun _ _ => 0
  currentMean := fun _ => 2
  currentVariance := fun _ => 1
  dampingFactor := 0
  evidence := fun _ => none
  log := []

/-- Witness for the amended C6: the one-factor state throws
(`updateAllMessages` and `runIterations 1` both yield `none`), while the
isolated-variable state satisfies the safety condition and its sweep
returns. -/
theorem gaussian_sweep_totality_witness :
    updateAllMessagesG gThrowState = none ∧
    runIterationsG 1 1 gThrowState = none ∧
    (updateAllMessagesG gIsoState).isSome = true := by
  have hthrow := gaussian_sweep_totality.1 gThrowState 0 1
    { name := "A", type := .VARIABLE, mean := 2, variance := 1 } rfl rfl rfl
    (by simp [gThrowState]) (by intro x hx; simpa [gThrowState] using hx)
  have hsafe : gaussianSweepSafe gIsoState := by
    intro id nd _ _ _ f hf
    simp [gIsoState] at hf
  exact ⟨hthrow.1, hthrow.2 1 1 (by norm_num),
    (gaussian_sweep_totality.2 gIsoState hsafe).1⟩

/-! ## Claim C10: graph normalization -/

/-- Spec-side: the directed id pair connects two existing nodes of
different kinds. -/
def kindsDiffer (types : List GraphType) (e : ℕ × ℕ) : Bool :=
  match types.get? e.1, types.get? e.2 with
  | some tf, some tt => decide (tf ≠ tt)
  | _, _ => false

/-- Spec-side adjacency written from the claim: for each directed (from, to)
pair, `to` is appended to `from`'s neighbor list if and only if the two
endpoints exist and have different kinds; order follows the edge list. -/
def neighborsSpec (types : List GraphType) (edges : List (ℕ × ℕ)) (i : ℕ) : List ℕ :=
  (edges.filter (fun e => decide (e.1 = i) && kindsDiffer types e)).map Prod.snd

/-- Spec-side invalid-edge reports: one per rejected directed pair, in
order. -/
def errorsSpec (types : List GraphType) (edges : List (ℕ × ℕ)) : List String :=
  (edges.filter (fun e => !(kindsDiffer types e))).map
    (fun e => s!"Invalid edge: ({e.1}, {e.2})")

/-- The adjacency step, rephrased through `kindsDiffer`. -/
theorem addAdjacency_eq (types : List GraphType) (acc : (ℕ → List ℕ) × List String)
    (e : ℕ × ℕ) :
    addAdjacency types acc e =
      if kindsDiffer types e then
        (fun i => if i = e.1 then acc.1 e.1 ++ [e.2] else acc.1 i, acc.2)
      else (acc.1, acc.2 ++ [s!"Invalid edge: ({e.1}, {e.2})"]) := by
  unfold addAdjacency kindsDiffer
  cases types.get? e.1 with
  | none => simp
  | some tf =>
    cases types.get? e.2 with
    | none => simp
    | some tt => by_cases h : tf = tt <;> simp [h]

/-- The adjacency fold appends exactly the spec-side neighbor lists and
error reports to any starting accumulator. -/
theorem buildAdjacency_spec_aux (types : List GraphType) :
    ∀ (edges : List (ℕ × ℕ)) (acc : (ℕ → List ℕ) × List String),
      (∀ i, (edges.foldl (addAdjacency types) acc).1 i =
        acc.1 i ++ neighborsSpec types edges i) ∧
      (edges.foldl (addAdjacency types) acc).2 =
        acc.2 ++ errorsSpec types edges := by
  intro edges
  induction edges with
  | nil => intro acc; simp [neighborsSpec, errorsSpec]
  | cons e rest ih =>
    intro acc
    rw [List.foldl_cons, addAdjacency_eq]
    by_cases hk : kindsDiffer types e = true
    · rw [if_pos hk]
      obtain ⟨ihn, ihe⟩ := ih
        (fun i => if i = e.1 then acc.1 e.1 ++ [e.2] else acc.1 i, acc.2)
      constructor
      · intro i
        rw [ihn i]
        unfold neighborsSpec
        rw [List.filter_cons]
        by_cases hi : i = e.1
        · subst hi
          simp [hk]
        · simp [hk, Ne.symm hi, hi]
      · rw [ihe]
        unfold errorsSpec
        rw [List.filter_cons]
        simp [hk]
    · rw [if_neg hk]
      obtain ⟨ihn, ihe⟩ := ih (acc.1, acc.2 ++ [s!"Invalid edge: ({e.1}, {e.2})"])
      constructor
      · intro i
        rw [ihn i]
        unfold neighborsSpec
        rw [List.filter_cons]
        simp [hk]
      · rw [ihe]
        unfold errorsSpec
        rw [List.filter_cons]
        simp [hk]

/-- Membership in the resolved, doubled edge list: exactly the input edges
whose both endpoint names are known, in both directions. -/
theorem resolveEdges_mem (names : List String) (edges : List (String × String))
    (e : ℕ × ℕ) :
    e ∈ resolveEdges names edges ↔
      ∃ p ∈ edges, p.1 ∈ names ∧ p.2 ∈ names ∧
        (e = (idOf names p.1, idOf names p.2) ∨
          e = (idOf names p.2, idOf names p.1)) := by
  unfold resolveEdges
  simp only [List.mem_flatMap, List.mem_map, List.mem_filter]
  constructor
  · rintro ⟨q, ⟨p, ⟨hp, hnames⟩, rfl⟩, hq⟩
    simp only [Bool.and_eq_true] at hnames
    refine ⟨p, hp, by simpa using hnames.1, by simpa using hnames.2, ?_⟩
    simpa [eq_comm] using hq
  · rintro ⟨p, hp, h1, h2, hor⟩
    refine ⟨(idOf names p.1, idOf names p.2), ⟨p, ⟨hp, ?_⟩, rfl⟩, ?_⟩
    · simp [h1, h2]
    · simpa [eq_comm] using hor

/-- C10.  Normalization in both engines: an input edge is kept exactly when
both endpoint names are known, each kept edge appears in both directions in
the built edge list, the neighbor list of every node consists of exactly
the targets of the accepted directed pairs (those whose endpoints exist and
have different kinds, in order), and every rejected directed pair produces
one invalid-edge report while the rest of normalization proceeds. -/
theorem graph_normalization_behavior :
    (∀ (g : DInput) (e : ℕ × ℕ), e ∈ (dprocessGraph g).edges ↔
      ∃ p ∈ g.edges, p.1 ∈ g.nodes.map Prod.fst ∧ p.2 ∈ g.nodes.map Prod.fst ∧
        (e = (idOf (g.nodes.map Prod.fst) p.1, idOf (g.nodes.map Prod.fst) p.2) ∨
          e = (idOf (g.nodes.map Prod.fst) p.2, idOf (g.nodes.map Prod.fst) p.1))) ∧
    (∀ (g : DInput) (i : ℕ), (dprocessGraph g).neighbors i =
      neighborsSpec ((dprocessGraph g).nodes.map DNode.type) (dprocessGraph g).edges i) ∧
    (∀ g : DInput, (dprocessGraph g).errors =
      errorsSpec ((dprocessGraph g).nodes.map DNode.type) (dprocessGraph g).edges) ∧
    (∀ (g : GInput) (e : ℕ × ℕ), e ∈ (gprocessGraph g).edges ↔
      ∃ p ∈ g.edges, p.1 ∈ g.nodes.map Prod.fst ∧ p.2 ∈ g.nodes.map Prod.fst ∧
        (e = (idOf (g.nodes.map Prod.fst) p.1, idOf (g.nodes.map Prod.fst) p.2) ∨
          e = (idOf (g.nodes.map Prod.fst) p.2, idOf (g.nodes.map Prod.fst) p.1))) ∧
    (∀ (g : GInput) (i : ℕ), (gprocessGraph g).neighbors i =
      neighborsSpec ((gprocessGraph g).nodes.map GNode.type) (gprocessGraph g).edges i) ∧
    (∀ g : GInput, (gprocessGraph g).errors =
      errorsSpec ((gprocessGraph g).nodes.map GNode.type) (gprocessGraph g).edges) := by
  refine ⟨?_, ?_, ?_, ?_, ?_, ?_⟩
  · intro g e
    exact resolveEdges_mem (g.nodes.map Prod.fst) g.edges e
  · intro g i
    have h := (buildAdjacency_spec_aux ((dprocessGraph g).nodes.map DNode.type)
      (dprocessGraph g).edges (fun _ => [], [])).1 i
    simpa using h
  · intro g
    have h := (buildAdjacency_spec_aux ((dprocessGraph g).nodes.map DNode.type)
      (dprocessGraph g).edges (fun _ => [], [])).2
    simpa using h
  · intro g e
    exact resolveEdges_mem (g.nodes.map Prod.fst) g.edges e
  · intro g i
    have h := (buildAdjacency_spec_aux ((gprocessGraph g).nodes.map GNode.type)
      (gprocessGraph g).edges (fun _ => [], [])).1 i
    simpa using h
  · intro g
    have h := (buildAdjacency_spec_aux ((gprocessGraph g).nodes.map GNode.type)
      (gprocessGraph g).edges (fun _ => [], [])).2
    simpa using h

/-! ## Claims C1 and C8: the discrete belief invariants -/

theorem lrExp_nonneg (v : LReal) : 0 ≤ v.exp := by
  cases v with
  | negInf => exact le_refl 0
  | fin x => exact le_of_lt (Real.exp_pos x)

/-- A running sum over indices equals the seed plus the list sum. -/
theorem foldl_add_sum_eq (l : List ℝ) : l.foldl (· + ·) 0 = l.sum := by
  rw [foldl_add_eq_sum, zero_add]

theorem sum_map_div (l : List ℝ) (c : ℝ) :
    (l.map (fun x => x / c)).sum = l.sum / c := by
  induction l with
  | nil => simp
  | cons x xs ih => simp [ih]; ring

theorem normalize_nonneg (l : List ℝ) (h : ∀ x ∈ l, 0 ≤ x) :
    ∀ y ∈ normalize l, 0 ≤ y := by
  intro y hy
  unfold normalize at hy
  obtain ⟨x, hx, rfl⟩ := List.mem_map.1 hy
  rw [foldl_add_sum_eq]
  exact div_nonneg (h x hx) (List.sum_nonneg h)

theorem normalize_length (l : List ℝ) : (normalize l).length = l.length := by
  unfold normalize
  exact List.length_map l _

/-- `normalize` of a nonempty positive vector is a positive probability
vector. -/
theorem normalize_of_pos (l : List ℝ) (hne : l ≠ []) (h : ∀ x ∈ l, 0 < x) :
    (∀ y ∈ normalize l, 0 < y) ∧ (normalize l).sum = 1 := by
  have hs : 0 < l.sum := List.sum_pos l h hne
  constructor
  · intro y hy
    unfold normalize at hy
    obtain ⟨x, hx, rfl⟩ := List.mem_map.1 hy
    rw [foldl_add_sum_eq]
    exact div_pos (h x hx) hs
  · unfold normalize
    rw [foldl_add_sum_eq, sum_map_div, div_self (ne_of_gt hs)]

theorem zipWith_blend_sum (d : ℝ) :
    ∀ (a b : List ℝ), a.length = b.length →
      (List.zipWith (fun x y => d * x + (1 - d) * y) a b).sum =
        d * a.sum + (1 - d) * b.sum := by
  intro a
  induction a with
  | nil =>
    intro b h
    rw [(by simpa using h.symm : b = [])]
    simp
  | cons x xs ih =>
    intro b h
    cases b with
    | nil => simp at h
    | cons y ys =>
      rw [List.zipWith_cons_cons, List.sum_cons, ih ys (by simpa using h)]
      simp [List.sum_cons]
      ring

theorem mem_zipWith_blend {d : ℝ} :
    ∀ (a b : List ℝ) (z : ℝ),
      z ∈ List.zipWith (fun x y => d * x + (1 - d) * y) a b →
      ∃ x y, x ∈ a ∧ y ∈ b ∧ z = d * x + (1 - d) * y := by
  intro a
  induction a with
  | nil => intro b z hz; simp at hz
  | cons x xs ih =>
    intro b z hz
    cases b with
    | nil => simp at hz
    | cons y ys =>
      rw [List.zipWith_cons_cons] at hz
      rcases List.mem_cons.1 hz with rfl | hz
      · exact ⟨x, y, List.mem_cons_self x xs, List.mem_cons_self y ys, rfl⟩
      · obtain ⟨x', y', hx', hy', rfl⟩ := ih ys z hz
        exact ⟨x', y', List.mem_cons_of_mem x hx', List.mem_cons_of_mem y hy', rfl⟩

theorem blend_pos {d x y : ℝ} (hd0 : 0 ≤ d) (hd1 : d ≤ 1) (hx : 0 < x) (hy : 0 < y) :
    0 < d * x + (1 - d) * y := by
  rcases lt_or_eq_of_le hd1 with h | h
  · have h1 : 0 < (1 - d) * y := mul_pos (by linarith) hy
    have h2 : 0 ≤ d * x := mul_nonneg hd0 (le_of_lt hx)
    linarith
  · rw [h]
    simpa using hx

/-- The blended-and-renormalized belief is again a positive probability
vector of the same length. -/
theorem dampMessage_prob (newMsg prevMsg : List ℝ) (d : ℝ)
    (hd0 : 0 ≤ d) (hd1 : d ≤ 1) (hlen : newMsg.length = prevMsg.length)
    (hne : newMsg ≠ [])
    (hnew : ∀ x ∈ newMsg, 0 < x) (hprev : ∀ x ∈ prevMsg, 0 < x) :
    (∀ x ∈ dampMessage newMsg prevMsg d, 0 < x) ∧
    (dampMessage newMsg prevMsg d).sum = 1 ∧
    (dampMessage newMsg prevMsg d).length = newMsg.length := by
  rw [dampMessage_eq_normalize_blend newMsg prevMsg d hlen]
  have hblen : (blendSpec d newMsg prevMsg).length = newMsg.length := by
    unfold blendSpec
    rw [List.length_zipWith, hlen, Nat.min_self]
  have hbne : blendSpec d newMsg prevMsg ≠ [] := by
    intro hc
    apply hne
    rw [hc] at hblen
    exact List.eq_nil_of_length_eq_zero hblen.symm
  have hbpos : ∀ z ∈ blendSpec d newMsg prevMsg, 0 < z := by
    intro z hz
    obtain ⟨x, y, hx, hy, rfl⟩ := mem_zipWith_blend newMsg prevMsg z hz
    exact blend_pos hd0 hd1 (hnew x hx) (hprev y hy)
  obtain ⟨hpos, hsum⟩ := normalize_of_pos _ hbne hbpos
  exact ⟨hpos, hsum, by rw [normalize_length]; exact hblen⟩

theorem getD_nonneg (l : List ℝ) (h : ∀ x ∈ l, 0 ≤ x) (i : ℕ) : 0 ≤ l.getD i 0 := by
  rcases lt_or_ge i l.length with hi | hi
  · refine h _ ?_
    rw [List.getD_eq_getElem l 0 hi]
    exact l.getElem_mem hi
  · rw [List.getD_eq_default l 0 hi]

theorem jsOr_pos {x : ℝ} (h : 0 ≤ x) : 0 < jsOr x 1 := by
  unfold jsOr
  by_cases hx : x = 0
  · rw [if_pos hx]; norm_num
  · rw [if_neg hx]; exact lt_of_le_of_ne h (Ne.symm hx)

theorem jsLog_pos {x : ℝ} (h : 0 < x) : jsLog x = .fin (Real.log x) := if_pos h

theorem fold_lrAdd_fin :
    ∀ (l : List LReal) (x : ℝ), (∀ v ∈ l, ∃ y, v = LReal.fin y) →
      ∃ z, l.foldl LReal.add (.fin x) = .fin z := by
  intro l
  induction l with
  | nil => intro x _; exact ⟨x, rfl⟩
  | cons v vs ih =>
    intro x h
    obtain ⟨y, rfl⟩ := h v (List.mem_cons_self v vs)
    exact ih (x + y) (fun w hw => h w (List.mem_cons_of_mem _ hw))

theorem mem_mapIdx_exists {α β : Type} :
    ∀ (l : List α) (f : ℕ → α → β) (z : β), z ∈ l.mapIdx f → ∃ i a, z = f i a := by
  intro l
  induction l with
  | nil => intro f z hz; simp at hz
  | cons a l ih =>
    intro f z hz
    rw [List.mapIdx_cons] at hz
    rcases List.mem_cons.1 hz with rfl | hz
    · exact ⟨0, a, rfl⟩
    · obtain ⟨i, b, rfl⟩ := ih _ z hz
      exact ⟨i + 1, b, rfl⟩

/-- The reachability invariant of the discrete engine: damping within
[0, 1], nonempty variable domains, nonnegative message entries, and for
every variable a belief vector of domain length that is a probability
distribution, strictly positive while the variable is unevidenced, with the
log-belief its pointwise `jsLog` image. -/
structure DInv (s : DState) : Prop where
  damp_lo : 0 ≤ s.dampingFactor
  damp_hi : s.dampingFactor ≤ 1
  dom_ne : ∀ id nd, s.nodes.get? id = some nd → nd.type = .VARIABLE →
    nd.possibleValues ≠ []
  msgs : ∀ a b, ∀ x ∈ s.messages a b, 0 ≤ x
  nextMsgs : ∀ a b, ∀ x ∈ s.nextMessages a b, 0 ≤ x
  blen : ∀ id nd, s.nodes.get? id = some nd → nd.type = .VARIABLE →
    (s.currentBelief id).length = nd.possibleValues.length
  bnn : ∀ id nd, s.nodes.get? id = some nd → nd.type = .VARIABLE →
    ∀ x ∈ s.currentBelief id, 0 ≤ x
  bsum : ∀ id nd, s.nodes.get? id = some nd → nd.type = .VARIABLE →
    (s.currentBelief id).sum = 1
  bpos : ∀ id nd, s.nodes.get? id = some nd → nd.type = .VARIABLE →
    s.evidence id = none → ∀ x ∈ s.currentBelief id, 0 < x
  logb : ∀ id nd, s.nodes.get? id = some nd → nd.type = .VARIABLE →
    s.logBelief id = (s.currentBelief id).map jsLog

/-- Rebuilding the invariant when only the two message buffers changed. -/
theorem DInv.withMessages {s t : DState} (h : DInv s) (hcore : DSameCore s t)
    (hm : ∀ a b, ∀ x ∈ t.messages a b, 0 ≤ x)
    (hn : ∀ a b, ∀ x ∈ t.nextMessages a b, 0 ≤ x) : DInv t := by
  obtain ⟨h1, h2, h3, h4, h5, h6, h7, h8⟩ := hcore
  refine ⟨?_, ?_, ?_, hm, hn, ?_, ?_, ?_, ?_, ?_⟩ <;>
    simp only [h1, h2, h3, h4, h5, h6, h7, h8]
  · exact h.damp_lo
  · exact h.damp_hi
  · exact h.dom_ne
  · exact h.blen
  · exact h.bnn
  · exact h.bsum
  · exact h.bpos
  · exact h.logb

/-- `updateVariableToFactorMessage` preserves the invariant. -/
theorem dv2f_inv (s : DState) (vid fid : ℕ) (h : DInv s) :
    DInv (updateVariableToFactorMessage s vid fid) := by
  refine DInv.withMessages h (dv2f_core s vid fid) ?_ ?_
  · intro a b x hx
    unfold updateVariableToFactorMessage at hx
    cases hev : s.evidence vid <;> rw [hev] at hx <;> exact h.msgs a b x hx
  · intro a b x hx
    unfold updateVariableToFactorMessage at hx
    cases hev : s.evidence vid <;> rw [hev] at hx <;> simp only at hx
    · by_cases hab : a = vid ∧ b = fid
      · rw [if_pos hab] at hx
        obtain ⟨z, hz, rfl⟩ := List.mem_map.1 hx
        obtain ⟨v, _, rfl⟩ := List.mem_map.1 hz
        rw [foldl_add_sum_eq]
        refine div_nonneg (lrExp_nonneg _) (List.sum_nonneg ?_)
        intro u hu
        obtain ⟨w, _, rfl⟩ := List.mem_map.1 hu
        exact lrExp_nonneg w
      · rw [if_neg hab] at hx
        exact h.nextMsgs a b x hx
    · by_cases hab : a = vid ∧ b = fid
      · rw [if_pos hab] at hx
        exact h.msgs vid fid x hx
      · rw [if_neg hab] at hx
        exact h.nextMsgs a b x hx

/-- `updateFactorToVariableMessage` preserves the invariant. -/
theorem df2v_inv (s : DState) (fid vid : ℕ) (h : DInv s) :
    DInv (updateFactorToVariableMessage s fid vid) := by
  refine DInv.withMessages h (df2v_core s fid vid) ?_ ?_
  · intro a b x hx
    exact h.msgs a b x hx
  · intro a b x hx
    unfold updateFactorToVariableMessage at hx
    simp only at hx
    by_cases hab : a = fid ∧ b = vid
    · rw [if_pos hab] at hx
      obtain ⟨z, _, rfl⟩ := List.mem_map.1 hx
      exact le_of_lt (Real.exp_pos _)
    · rw [if_neg hab] at hx
      exact h.nextMsgs a b x hx

/-- Both message-sweep phases and the buffer swap preserve the
invariant. -/
theorem updateAllMessages_inv (s : DState) (h : DInv s) :
    DInv (updateAllMessages s) := by
  have hv : ∀ t : DState, DInv t → DInv (dsweepVariablePhase t) := by
    intro t ht
    unfold dsweepVariablePhase
    refine foldl_preserve DInv _ _ _ ht ?_
    intro u id hu
    cases hnd : u.nodes.get? id with
    | none => simpa [hnd] using hu
    | some nd =>
      by_cases hvv : nd.type = GraphType.VARIABLE
      · simp only [hnd, hvv, if_pos]
        exact foldl_preserve DInv _ _ _ hu (fun w fid hw => dv2f_inv w id fid hw)
      · simpa [hnd, hvv] using hu
  have hf : ∀ t : DState, DInv t → DInv (dsweepFactorPhase t) := by
    intro t ht
    unfold dsweepFactorPhase
    refine foldl_preserve DInv _ _ _ ht ?_
    intro u id hu
    cases hnd : u.nodes.get? id with
    | none => simpa [hnd] using hu
    | some nd =>
      by_cases hvv : nd.type = GraphType.FACTOR
      · simp only [hnd, hvv, if_pos]
        exact foldl_preserve DInv _ _ _ hu (fun w vid hw => df2v_inv w id vid hw)
      · simpa [hnd, hvv] using hu
  have h2 := hf _ (hv _ h)
  unfold updateAllMessages dswapBuffers
  obtain ⟨h1, h2', h3, h4, h5, h6, h7, h8, h9, h10⟩ := h2
  exact ⟨h1, h2', h3, h5, h4, h6, h7, h8, h9, h10⟩

theorem fold_lrAdd_map_fin {α : Type} (g : α → LReal) :
    ∀ (l : List α) (x : ℝ), (∀ a ∈ l, ∃ y, g a = LReal.fin y) →
      ∃ z, l.foldl (fun acc a => LReal.add acc (g a)) (.fin x) = .fin z := by
  intro l
  induction l with
  | nil => intro x _; exact ⟨x, rfl⟩
  | cons a l ih =>
    intro x h
    obtain ⟨y, hy⟩ := h a (List.mem_cons_self a l)
    rw [List.foldl_cons, hy]
    exact ih (x + y) (fun b hb => h b (List.mem_cons_of_mem _ hb))

/-- The belief-update step preserves the invariant. -/
theorem updateBeliefStep_inv (s : DState) (id : ℕ) (h : DInv s) :
    DInv (updateBeliefStep s id) := by
  obtain hnone | ⟨nd, hnd⟩ : s.nodes.get? id = none ∨ ∃ nd, s.nodes.get? id = some nd := by
    cases s.nodes.get? id
    · exact Or.inl rfl
    · exact Or.inr ⟨_, rfl⟩
  · unfold updateBeliefStep
    simp only [hnone]
    exact h
  · unfold updateBeliefStep
    simp only [hnd]
    by_cases hv : nd.type = GraphType.VARIABLE
    · rw [if_pos hv]
      cases hev : s.evidence id with
      | some _ => exact h
      | none =>
        have hmpos : ∀ x ∈ nd.possibleValues.mapIdx (fun i _ =>
            LReal.exp ((s.neighbors id).foldl (fun a nb =>
              LReal.add a (jsLog (jsOr ((s.messages nb id).getD i 0) 1))) (.fin 0))),
            0 < x := by
          intro x hx
          obtain ⟨i, a, rfl⟩ := mem_mapIdx_exists _ _ _ hx
          obtain ⟨z, hz⟩ := fold_lrAdd_map_fin
            (fun nb => jsLog (jsOr ((s.messages nb id).getD i 0) 1))
            (s.neighbors id) 0 (by
              intro nb _
              refine ⟨Real.log (jsOr ((s.messages nb id).getD i 0) 1), ?_⟩
              exact jsLog_pos (jsOr_pos (getD_nonneg _ (h.msgs nb id) i)))
          rw [hz]
          exact Real.exp_pos z
        have hmlen : (nd.possibleValues.mapIdx (fun i _ =>
            LReal.exp ((s.neighbors id).foldl (fun a nb =>
              LReal.add a (jsLog (jsOr ((s.messages nb id).getD i 0) 1)))
              (.fin 0)))).length = nd.possibleValues.length := List.length_mapIdx
        have hmne : nd.possibleValues.mapIdx (fun i _ =>
            LReal.exp ((s.neighbors id).foldl (fun a nb =>
              LReal.add a (jsLog (jsOr ((s.messages nb id).getD i 0) 1)))
              (.fin 0))) ≠ [] := by
          intro hc
          apply h.dom_ne id nd hnd hv
          rw [hc] at hmlen
          exact List.eq_nil_of_length_eq_zero hmlen.symm
        obtain ⟨hnpos, hnsum⟩ := normalize_of_pos _ hmne hmpos
        have hnlen := normalize_length (nd.possibleValues.mapIdx (fun i _ =>
          LReal.exp ((s.neighbors id).foldl (fun a nb =>
            LReal.add a (jsLog (jsOr ((s.messages nb id).getD i 0) 1))) (.fin 0))))
        have hplen : (normalize (nd.possibleValues.mapIdx (fun i _ =>
            LReal.exp ((s.neighbors id).foldl (fun a nb =>
              LReal.add a (jsLog (jsOr ((s.messages nb id).getD i 0) 1)))
              (.fin 0))))).length = (s.currentBelief id).length := by
          rw [hnlen, hmlen, h.blen id nd hnd hv]
        have hnne : normalize (nd.possibleValues.mapIdx (fun i _ =>
            LReal.exp ((s.neighbors id).foldl (fun a nb =>
              LReal.add a (jsLog (jsOr ((s.messages nb id).getD i 0) 1)))
              (.fin 0)))) ≠ [] := by
          intro hc
          apply hmne
          have := congrArg List.length hc
          rw [hnlen] at this
          exact List.eq_nil_of_length_eq_zero this
        obtain ⟨hdpos, hdsum, hdlen⟩ := dampMessage_prob _ (s.currentBelief id)
          s.dampingFactor h.damp_lo h.damp_hi hplen hnne hnpos
          (h.bpos id nd hnd hv hev)
        refine ⟨h.damp_lo, h.damp_hi, h.dom_ne, h.msgs, h.nextMsgs, ?_, ?_, ?_, ?_, ?_⟩ <;>
          intro id' nd' hnd' hv'
        · by_cases hj : id' = id
          · subst hj
            rw [hnd] at hnd'
            cases hnd'
            simp only [eq_self_iff_true, if_true]
            rw [hdlen, hnlen, hmlen]
          · simp only [if_neg hj]
            exact h.blen id' nd' hnd' hv'
        · by_cases hj : id' = id
          · subst hj
            simp only [eq_self_iff_true, if_true]
            exact fun x hx => le_of_lt (hdpos x hx)
          · simp only [if_neg hj]
            exact h.bnn id' nd' hnd' hv'
        · by_cases hj : id' = id
          · subst hj
            simp only [eq_self_iff_true, if_true]
            exact hdsum
          · simp only [if_neg hj]
            exact h.bsum id' nd' hnd' hv'
        · by_cases hj : id' = id
          · subst hj
            simp only [eq_self_iff_true, if_true]
            exact fun _ => hdpos
          · simp only [if_neg hj]
            exact h.bpos id' nd' hnd' hv'
        · by_cases hj : id' = id
          · subst hj
            simp only [eq_self_iff_true, if_true]
          · simp only [if_neg hj]
            exact h.logb id' nd' hnd' hv'
    · rw [if_neg hv]
      exact h

/-- `updateBeliefs` preserves the invariant. -/
theorem updateBeliefs_inv (s : DState) (h : DInv s) : DInv (updateBeliefs s) := by
  unfold updateBeliefs
  exact foldl_preserve DInv _ _ _ h (fun t id ht => updateBeliefStep_inv t id ht)

/-- Appending a log line preserves the invariant. -/
theorem DInv.withLog {s : DState} (h : DInv s) (l : List String) :
    DInv { s with log := l } :=
  ⟨h.damp_lo, h.damp_hi, h.dom_ne, h.msgs, h.nextMsgs, h.blen, h.bnn, h.bsum,
    h.bpos, h.logb⟩

/-- `runIterations` preserves the invariant. -/
theorem runIterations_inv (n : ℕ) (tol : ℝ) (s : DState) (h : DInv s) :
    DInv (runIterations n tol s) := by
  show DInv (runIterationsAux n tol n s)
  have key : ∀ (fuel : ℕ) (t : DState), DInv t → DInv (runIterationsAux n tol fuel t) := by
    intro fuel
    induction fuel with
    | zero => intro t ht; exact ht.withLog _
    | succ rem ih =>
      intro t ht
      simp only [runIterationsAux]
      by_cases hc : dmaxDiff (updateBeliefs (updateAllMessages t))
          ((variableIds t).map fun id => t.currentBelief id) < tol
      · rw [if_pos hc]
        exact (updateBeliefs_inv _ (updateAllMessages_inv t ht)).withLog _
      · rw [if_neg hc]
        exact ih _ (updateBeliefs_inv _ (updateAllMessages_inv t ht))
  exact key n s h

/-- The node `findNode` returns really sits at the returned id. -/
theorem findNode_some (s : DState) (name : String) (id : ℕ) (nd : DNode)
    (h : findNode s name = some (id, nd)) : s.nodes.get? id = some nd := by
  unfold findNode at h
  cases hf : (List.range s.nodes.length).find? (fun id =>
      (s.nodes.get? id).elim false (fun nd => nd.name = name)) with
  | none => rw [hf] at h; cases h
  | some j =>
    rw [hf] at h
    have h' : Option.map (fun nd => (j, nd)) (s.nodes.get? j) = some (id, nd) := h
    cases hg : s.nodes.get? j with
    | none => rw [hg] at h'; cases h'
    | some nd' =>
      rw [hg] at h'
      simp only [Option.map_some'] at h'
      obtain ⟨rfl, rfl⟩ := h'
      exact hg

/-- The one-hot vector sums to the number of domain entries matching the
observed value. -/
theorem oneHot_sum (dom : List ℝ) (value : ℝ) :
    (dom.map (fun v => if v = value then (1 : ℝ) else 0)).sum =
      ((dom.filter (fun v => v = value)).length : ℝ) := by
  induction dom with
  | nil => simp
  | cons x xs ih =>
    by_cases h : x = value <;> simp [List.filter_cons, h, ih] <;> push_cast <;> try ring

/-- The source's explicit 0 / `-Infinity` log-belief of a one-hot vector is
its pointwise `jsLog` image. -/
theorem oneHot_logBelief (dom : List ℝ) (value : ℝ) :
    (dom.map (fun v => if v = value then (1 : ℝ) else 0)).map
        (fun v => if v = 1 then LReal.fin 0 else .negInf) =
      (dom.map (fun v => if v = value then (1 : ℝ) else 0)).map jsLog := by
  refine List.map_congr_left ?_
  intro x hx
  obtain ⟨v, _, rfl⟩ := List.mem_map.1 hx
  by_cases h : v = value
  · simp only [if_pos h]
    rw [if_pos trivial]
    unfold jsLog
    rw [if_pos (by norm_num : (0 : ℝ) < 1), Real.log_one]
  · simp only [if_neg h]
    rw [if_neg (by norm_num : ¬ ((0 : ℝ) = 1))]
    unfold jsLog
    rw [if_neg (by norm_num : ¬ ((0 : ℝ) < 0))]

/-- `setEvidence` preserves the invariant when the observed value occurs
exactly once in the target variable's domain. -/
theorem setEvidence_inv (s : DState) (name : String) (value : ℝ) (h : DInv s)
    (hok : ∀ id nd, findNode s name = some (id, nd) → nd.type = .VARIABLE →
      (nd.possibleValues.filter (fun v => v = value)).length = 1) :
    DInv (setEvidence name value s) := by
  unfold setEvidence
  split
  next id nd hf =>
    by_cases hv : nd.type = GraphType.VARIABLE
    · rw [if_pos hv]
      have hnd := findNode_some s name id nd hf
      have hcount := hok id nd hf hv
      have honn : ∀ x ∈ nd.possibleValues.map
          (fun v => if v = value then (1 : ℝ) else 0), 0 ≤ x := by
        intro x hx
        obtain ⟨v, _, rfl⟩ := List.mem_map.1 hx
        by_cases hvv : v = value <;> simp [hvv]
      refine ⟨h.damp_lo, h.damp_hi, h.dom_ne, ?_, ?_, ?_, ?_, ?_, ?_, ?_⟩
      · intro a b x hx
        simp only at hx
        by_cases hab : a = id ∧ (s.neighbors id).contains b
        · rw [if_pos hab] at hx
          exact honn x hx
        · rw [if_neg hab] at hx
          exact h.msgs a b x hx
      · intro a b x hx
        simp only at hx
        by_cases hab : a = id ∧ (s.neighbors id).contains b
        · rw [if_pos hab] at hx
          exact honn x hx
        · rw [if_neg hab] at hx
          exact h.nextMsgs a b x hx
      · intro id' nd' hnd' hv'
        by_cases hj : id' = id
        · subst hj
          rw [hnd] at hnd'
          cases hnd'
          simp only [eq_self_iff_true, if_true]
          exact List.length_map _ _
        · simp only [if_neg hj]
          exact h.blen id' nd' hnd' hv'
      · intro id' nd' hnd' hv'
        by_cases hj : id' = id
        · subst hj
          simp only [eq_self_iff_true, if_true]
          exact honn
        · simp only [if_neg hj]
          exact h.bnn id' nd' hnd' hv'
      · intro id' nd' hnd' hv'
        by_cases hj : id' = id
        · subst hj
          simp only [eq_self_iff_true, if_true]
          rw [oneHot_sum, hcount]
          norm_num
        · simp only [if_neg hj]
          exact h.bsum id' nd' hnd' hv'
      · intro id' nd' hnd' hv' hev'
        by_cases hj : id' = id
        · subst hj
          simp only [eq_self_iff_true, if_true] at hev'
          cases hev'
        · simp only [if_neg hj] at hev' ⊢
          exact h.bpos id' nd' hnd' hv' hev'
      · intro id' nd' hnd' hv'
        by_cases hj : id' = id
        · subst hj
          simp only [eq_self_iff_true, if_true]
          exact oneHot_logBelief nd.possibleValues value
        · simp only [if_neg hj]
          exact h.logb id' nd' hnd' hv'
    · rw [if_neg hv]
      exact h
  next hf =>
    exact h

/-- A variable node of the normalized graph carries the possible values of
the corresponding raw input node. -/
theorem dprocessGraph_nodes_variable (g : DInput) (id : ℕ) (nd : DNode)
    (hnd : (dprocessGraph g).nodes.get? id = some nd) (hv : nd.type = .VARIABLE) :
    ∃ p ∈ g.nodes, ∃ cb, p.2 = DInputNode.variable nd.possibleValues cb := by
  unfold dprocessGraph at hnd
  simp only [List.get?_map] at hnd
  cases hp : g.nodes.get? id with
  | none => rw [hp] at hnd; cases hnd
  | some p =>
    rw [hp] at hnd
    simp only [Option.map_some'] at hnd
    rcases hq : p.2 with ⟨pv, cb⟩ | pot
    · simp only [hq] at hnd
      cases hnd
      exact ⟨p, List.get?_mem hp, cb, hq⟩
    · simp only [hq] at hnd
      cases hnd
      simp at hv

/-- The constructor establishes the invariant whenever the damping factor is
in [0, 1] and every input variable has a nonempty domain. -/
theorem dconstruct_inv (g : DInput) (damping : ℝ) (hd0 : 0 ≤ damping)
    (hd1 : damping ≤ 1)
    (hdom : ∀ p ∈ g.nodes, ∀ pv cb, p.2 = DInputNode.variable pv cb → pv ≠ []) :
    DInv (dconstruct g damping) := by
  have hdom' : ∀ id nd, (dprocessGraph g).nodes.get? id = some nd →
      nd.type = .VARIABLE → nd.possibleValues ≠ [] := by
    intro id nd hnd hv
    obtain ⟨p, hp, cb, hq⟩ := dprocessGraph_nodes_variable g id nd hnd hv
    exact hdom p hp nd.possibleValues cb hq
  have hmarg : ∀ id nd, (dprocessGraph g).nodes.get? id = some nd →
      nd.type = .VARIABLE →
      (dconstruct g damping).currentBelief id =
        List.replicate nd.possibleValues.length
          ((1 : ℝ) / nd.possibleValues.length) := by
    intro id nd hnd hv
    show (match (dprocessGraph g).nodes.get? id with
      | some nd => if nd.type = GraphType.VARIABLE then
          List.replicate nd.possibleValues.length
            ((1 : ℝ) / nd.possibleValues.length)
        else []
      | none => []) = _
    simp only [hnd]
    rw [if_pos hv]
  have hpos : ∀ id nd, (dprocessGraph g).nodes.get? id = some nd →
      nd.type = .VARIABLE →
      (0 : ℝ) < 1 / nd.possibleValues.length := by
    intro id nd hnd hv
    have hk : 0 < nd.possibleValues.length :=
      List.length_pos.2 (hdom' id nd hnd hv)
    exact one_div_pos.2 (by exact_mod_cast hk)
  refine ⟨hd0, hd1, hdom', ?_, ?_, ?_, ?_, ?_, ?_, ?_⟩
  · show ∀ a b, ∀ x ∈ (dconstruct g damping).messages a b, 0 ≤ x
    unfold dconstruct
    simp only
    refine foldl_preserve (fun m : ℕ → ℕ → List ℝ => ∀ a b, ∀ x ∈ m a b, 0 ≤ x)
      _ _ _ (by intro a b x hx; simp at hx) ?_
    intro m e hm a b x hx
    by_cases hab : a = e.1 ∧ b = e.2
    · rw [if_pos hab] at hx
      obtain hnone | ⟨nd, hnd⟩ : (dprocessGraph g).nodes.get? e.2 = none ∨
          ∃ nd, (dprocessGraph g).nodes.get? e.2 = some nd := by
        cases (dprocessGraph g).nodes.get? e.2
        · exact Or.inl rfl
        · exact Or.inr ⟨_, rfl⟩
      · simp only [hnone] at hx
        simp at hx
        rw [hx]
        norm_num
      · simp only [hnd] at hx
        by_cases hv : nd.type = GraphType.VARIABLE
        · rw [if_pos hv, if_pos hv] at hx
          rw [List.eq_of_mem_replicate hx]
          have hk : (0 : ℝ) ≤ nd.possibleValues.length := Nat.cast_nonneg _
          positivity
        · rw [if_neg hv] at hx
          simp at hx
          rw [hx]
          norm_num
    · rw [if_neg hab] at hx
      exact hm a b x hx
  · intro a b x hx
    unfold dconstruct at hx
    simp at hx
  · intro id nd hnd hv
    rw [hmarg id nd hnd hv]
    exact List.length_replicate _ _
  · intro id nd hnd hv x hx
    rw [hmarg id nd hnd hv] at hx
    rw [List.eq_of_mem_replicate hx]
    exact le_of_lt (hpos id nd hnd hv)
  · intro id nd hnd hv
    rw [hmarg id nd hnd hv]
    have hk : 0 < nd.possibleValues.length :=
      List.length_pos.2 (hdom' id nd hnd hv)
    rw [List.sum_replicate, nsmul_eq_mul]
    rw [mul_one_div]
    exact div_self (by exact_mod_cast Nat.pos_iff_ne_zero.1 hk)
  · intro id nd hnd hv _ x hx
    rw [hmarg id nd hnd hv] at hx
    rw [List.eq_of_mem_replicate hx]
    exact hpos id nd hnd hv
  · intro id nd hnd hv
    show ((dconstruct g damping).currentBelief id).map (fun x => .fin (Real.log x)) =
      ((dconstruct g damping).currentBelief id).map jsLog
    refine List.map_congr_left ?_
    intro x hx
    rw [hmarg id nd hnd hv] at hx
    rw [List.eq_of_mem_replicate hx]
    rw [jsLog_pos (hpos id nd hnd hv)]

/-! ## Reachable states of the discrete engine (claims C1 and C8) -/

/-- States reachable through the public API from a freshly constructed
discrete engine: the constructor itself, `runIterations` with any iteration
budget and tolerance, and `setEvidence` whenever the observed value occurs
exactly once in the target variable's domain. -/
inductive DReach (g : DInput) (damping : ℝ) : DState → Prop where
  | init : DReach g damping (dconstruct g damping)
  | run (n : ℕ) (tol : ℝ) {s : DState} (hs : DReach g damping s) :
      DReach g damping (runIterations n tol s)
  | evid (name : String) (value : ℝ) {s : DState} (hs : DReach g damping s)
      (hok : ∀ id nd, findNode s name = some (id, nd) → nd.type = .VARIABLE →
        (nd.possibleValues.filter (fun v => v = value)).length = 1) :
      DReach g damping (setEvidence name value s)

/-- Every reachable state satisfies the invariant, provided the damping
factor is in [0, 1] and every input variable has a nonempty domain. -/
theorem reach_inv (g : DInput) (damping : ℝ) (hd0 : 0 ≤ damping)
    (hd1 : damping ≤ 1)
    (hdom : ∀ p ∈ g.nodes, ∀ pv cb, p.2 = DInputNode.variable pv cb → pv ≠ [])
    (s : DState) (hs : DReach g damping s) : DInv s := by
  induction hs with
  | init => exact dconstruct_inv g damping hd0 hd1 hdom
  | run n tol hs ih => exact runIterations_inv n tol _ ih
  | evid name value hs hok ih => exact setEvidence_inv _ name value ih hok

/-- A successful `getBeliefs` call returns the current belief of a variable
node that really exists in the graph. -/
theorem getBeliefs_ok (s : DState) (name : String) (bs : List ℝ)
    (h : getBeliefs s name = .ok bs) :
    ∃ id nd, s.nodes.get? id = some nd ∧ nd.type = GraphType.VARIABLE ∧
      bs = s.currentBelief id := by
  unfold getBeliefs at h
  split at h
  next id nd hf =>
    by_cases hv : nd.type = GraphType.VARIABLE
    · rw [if_pos hv] at h
      cases h
      exact ⟨id, nd, findNode_some s name id nd hf, hv, rfl⟩
    · rw [if_neg hv] at h
      cases h
  next hf => cases h

/-- Successful `getBeliefs` and `getLogBeliefs` calls on the same name
return the two belief vectors of one and the same variable node. -/
theorem getLogBeliefs_ok (s : DState) (name : String) (bs : List ℝ)
    (ls : List LReal) (hb : getBeliefs s name = .ok bs)
    (hl : getLogBeliefs s name = .ok ls) :
    ∃ id nd, s.nodes.get? id = some nd ∧ nd.type = GraphType.VARIABLE ∧
      bs = s.currentBelief id ∧ ls = s.logBelief id := by
  unfold getBeliefs at hb
  unfold getLogBeliefs at hl
  split at hb
  next id nd hf =>
    simp only [hf] at hl
    by_cases hv : nd.type = GraphType.VARIABLE
    · rw [if_pos hv] at hb hl
      cases hb
      cases hl
      exact ⟨id, nd, findNode_some s name id nd hf, hv, rfl, rfl⟩
    · rw [if_neg hv] at hb
      cases hb
  next hf => cases hb

/-- `jsLog` of a nonnegative number is `-Infinity` exactly at zero. -/
theorem jsLog_negInf_iff {x : ℝ} (hx : 0 ≤ x) : jsLog x = .negInf ↔ x = 0 := by
  unfold jsLog
  rcases lt_or_eq_of_le hx with h | h
  · rw [if_pos h]
    constructor
    · intro hc
      exact absurd hc (fun hc => LReal.noConfusion hc)
    · intro h0
      exact absurd h0 (ne_of_gt h)
  · have hx0 : x = 0 := h.symm
    rw [if_neg (by rw [hx0]; exact lt_irrefl 0), hx0]
    simp

/-- `Math.exp` inverts `jsLog` on nonnegative numbers, with
`exp(-Infinity) = 0` covering the zero case. -/
theorem lrExp_jsLog {x : ℝ} (hx : 0 ≤ x) : LReal.exp (jsLog x) = x := by
  unfold jsLog
  rcases lt_or_eq_of_le hx with h | h
  · rw [if_pos h]
    exact Real.exp_log h
  · have hx0 : x = 0 := h.symm
    rw [if_neg (by rw [hx0]; exact lt_irrefl 0), hx0]
    rfl

/-- Reading the pointwise-`jsLog` image of a list at an in-range index. -/
theorem getD_map_jsLog (bs : List ℝ) (i : ℕ) (h : i < bs.length) :
    (bs.map jsLog).getD i LReal.negInf = jsLog (bs.getD i 0) := by
  rw [List.getD_eq_getElem _ _ (by simpa using h), List.getD_eq_getElem _ _ h,
    List.getElem_map]

/-- A one-variable, edge-free input used to exercise the public API. -/
def dWitnessInput : DInput :=
  { nodes := [("A", DInputNode.variable [0, 1] [1 / 2, 1 / 2])], edges := [] }

/-- Every variable of `dWitnessInput` has a nonempty domain. -/
theorem dWitnessInput_dom :
    ∀ p ∈ dWitnessInput.nodes, ∀ pv cb,
      p.2 = DInputNode.variable pv cb → pv ≠ [] := by
  intro p hp pv cb hpc
  simp only [dWitnessInput, List.mem_singleton] at hp
  subst hp
  cases hpc
  simp

/-- **C1.** In every state of the discrete engine reachable from
construction through `setEvidence` (observing a value occurring exactly once
in the domain) and `runIterations`, and assuming the damping factor lies in
[0, 1] and every input variable has a nonempty domain, the belief vector
`getBeliefs` returns for any variable is a valid probability distribution:
all entries are nonnegative and the sum is exactly 1, hence within the 1e-9
floating tolerance of 1. -/
theorem discrete_beliefs_always_distributions
    (g : DInput) (damping : ℝ) (s : DState)
    (hd0 : 0 ≤ damping) (hd1 : damping ≤ 1)
    (hdom : ∀ p ∈ g.nodes, ∀ pv cb, p.2 = DInputNode.variable pv cb → pv ≠ [])
    (hs : DReach g damping s) (name : String) (bs : List ℝ)
    (hb : getBeliefs s name = .ok bs) :
    (∀ x ∈ bs, 0 ≤ x) ∧ bs.sum = 1 ∧ |bs.sum - 1| ≤ 1e-9 := by
  have hinv : DInv s := reach_inv g damping hd0 hd1 hdom s hs
  obtain ⟨id, nd, hnd, hv, rfl⟩ := getBeliefs_ok s name bs hb
  refine ⟨hinv.bnn id nd hnd hv, hinv.bsum id nd hnd hv, ?_⟩
  rw [hinv.bsum id nd hnd hv, sub_self, abs_zero]
  norm_num

/-- C1 witness: the freshly constructed one-variable engine answers
`getBeliefs "A"` with the uniform vector [1/2, 1/2], a valid probability
distribution. -/
theorem discrete_beliefs_always_distributions_witness :
    (∀ x ∈ List.replicate 2 ((1 : ℝ) / ((2 : ℕ) : ℝ)), 0 ≤ x) ∧
      (List.replicate 2 ((1 : ℝ) / ((2 : ℕ) : ℝ))).sum = 1 ∧
      |(List.replicate 2 ((1 : ℝ) / ((2 : ℕ) : ℝ))).sum - 1| ≤ 1e-9 :=
  discrete_beliefs_always_distributions dWitnessInput 0
    (dconstruct dWitnessInput 0) le_rfl zero_le_one dWitnessInput_dom
    DReach.init "A" _ rfl

/-- **C8.** In every reachable state of the discrete engine (same
reachability and input hypotheses as for the belief invariant), the vector
`getLogBeliefs` returns is pointwise consistent with the one `getBeliefs`
returns: they have the same length, the log-belief equals `log` of the
belief at every nonzero entry, it is `-Infinity` exactly where the belief
entry is 0, and `exp` of the log-belief recovers the belief exactly — in
particular within any floating tolerance. -/
theorem log_belief_consistency
    (g : DInput) (damping : ℝ) (s : DState)
    (hd0 : 0 ≤ damping) (hd1 : damping ≤ 1)
    (hdom : ∀ p ∈ g.nodes, ∀ pv cb, p.2 = DInputNode.variable pv cb → pv ≠ [])
    (hs : DReach g damping s) (name : String) (bs : List ℝ) (ls : List LReal)
    (hb : getBeliefs s name = .ok bs) (hl : getLogBeliefs s name = .ok ls) :
    ls.length = bs.length ∧
      ∀ i, i < bs.length →
        (bs.getD i 0 ≠ 0 →
          ls.getD i LReal.negInf = LReal.fin (Real.log (bs.getD i 0))) ∧
        (ls.getD i LReal.negInf = LReal.negInf ↔ bs.getD i 0 = 0) ∧
        LReal.exp (ls.getD i LReal.negInf) = bs.getD i 0 := by
  have hinv : DInv s := reach_inv g damping hd0 hd1 hdom s hs
  obtain ⟨id, nd, hnd, hv, hbs, hls⟩ := getLogBeliefs_ok s name bs ls hb hl
  have hmap : ls = bs.map jsLog := by
    rw [hls, hinv.logb id nd hnd hv, hbs]
  have hnn : ∀ x ∈ bs, 0 ≤ x := by
    rw [hbs]
    exact hinv.bnn id nd hnd hv
  subst hmap
  refine ⟨by simp, ?_⟩
  intro i hi
  have hx : 0 ≤ bs.getD i 0 := getD_nonneg bs hnn i
  have hget : (bs.map jsLog).getD i LReal.negInf = jsLog (bs.getD i 0) :=
    getD_map_jsLog bs i hi
  refine ⟨?_, ?_, ?_⟩
  · intro hne
    rw [hget, jsLog_pos (lt_of_le_of_ne hx (Ne.symm hne))]
  · rw [hget]
    exact jsLog_negInf_iff hx
  · rw [hget]
    exact lrExp_jsLog hx

/-- C8 witness: on the freshly constructed one-variable engine the
log-belief vector `getLogBeliefs "A"` returns is pointwise consistent with
the belief vector [1/2, 1/2] returned by `getBeliefs "A"`. -/
theorem log_belief_consistency_witness :
    ((List.replicate 2 ((1 : ℝ) / ((2 : ℕ) : ℝ))).map
        (fun x => LReal.fin (Real.log x))).length =
      (List.replicate 2 ((1 : ℝ) / ((2 : ℕ) : ℝ))).length ∧
      ∀ i, i < (List.replicate 2 ((1 : ℝ) / ((2 : ℕ) : ℝ))).length →
        ((List.replicate 2 ((1 : ℝ) / ((2 : ℕ) : ℝ))).getD i 0 ≠ 0 →
          ((List.replicate 2 ((1 : ℝ) / ((2 : ℕ) : ℝ))).map
              (fun x => LReal.fin (Real.log x))).getD i LReal.negInf =
            LReal.fin (Real.log
              ((List.replicate 2 ((1 : ℝ) / ((2 : ℕ) : ℝ))).getD i 0))) ∧
        (((List.replicate 2 ((1 : ℝ) / ((2 : ℕ) : ℝ))).map
              (fun x => LReal.fin (Real.log x))).getD i LReal.negInf =
            LReal.negInf ↔
          (List.replicate 2 ((1 : ℝ) / ((2 : ℕ) : ℝ))).getD i 0 = 0) ∧
        LReal.exp (((List.replicate 2 ((1 : ℝ) / ((2 : ℕ) : ℝ))).map
            (fun x => LReal.fin (Real.log x))).getD i LReal.negInf) =
          (List.replicate 2 ((1 : ℝ) / ((2 : ℕ) : ℝ))).getD i 0 :=
  log_belief_consistency dWitnessInput 0 (dconstruct dWitnessInput 0) le_rfl
    zero_le_one dWitnessInput_dom DReach.init "A" _ _ rfl rfl

end

end BP
